import Mathlib

/-!
# Test-session service (`api/index.js`)

A shallow embedding of the request handlers of `api/index.js`.  The two JSON
files `users.json` and `testResults.json` are the two fields of `Store`; each
handler is a function from the request and the store to the response and the
store that is on disk when the handler returns.

* JavaScript arrays are lists: `find` is `List.find?`, `some` is `List.any`,
  `filter` is `List.filter`, `push` appends at the end, `findIndex` is
  `findIndex` below (`none` stands for `-1`), `a[i] = x` is `List.set`.
* `String.prototype.toLowerCase` and `String.prototype.trim` come from the
  JavaScript runtime, not from this repository.  The handlers take them as the
  two fields of `StringOps`, and every general theorem holds for all such
  functions.  `asciiOps` is the instance used to evaluate the handlers on
  concrete ASCII inputs, where it agrees with the runtime.
* `Date.now()`, `new Date().toISOString()`, the `x-forwarded-for` header and
  the socket address are inputs of a request, gathered in `Env`.
* Request fields are strings, the empty string being the falsy one
  (`authenticateBody` adds the case of a missing field of `/api/auth`);
  `pdfDownloaded` and `canRetake` are booleans; `pattern`, `score`, `total`
  and `answers` are opaque values.
* `Reachable` is the set of stores the four state-changing handlers produce
  from two empty files.
-/

namespace Xamplore

/-! ## Runtime string methods -/

/-- The methods of `String.prototype` that the handlers call. -/
structure StringOps where
  /-- Models `s.toLowerCase()`. -/
  toLowerCase : String → String
  /-- Models `s.trim()`. -/
  trim : String → String

/-- ASCII white space: space, tab, line feed, vertical tab, form feed, carriage return. -/
def isAsciiSpace (c : Char) : Bool :=
  c.toNat = 32 || (9 ≤ c.toNat && c.toNat ≤ 13)

/-- Lower-cases the letters `A`-`Z` and leaves every other character alone. -/
def asciiLowerChar (c : Char) : Char :=
  if 65 ≤ c.toNat ∧ c.toNat ≤ 90 then Char.ofNat (c.toNat + 32) else c

/-- The runtime string methods restricted to ASCII text. -/
def asciiOps : StringOps where
  toLowerCase s := ⟨s.data.map asciiLowerChar⟩
  trim s := ⟨((s.data.dropWhile isAsciiSpace).reverse.dropWhile isAsciiSpace).reverse⟩

/-! ## Data model -/

/-- An opaque JSON value of the submission payload, kept as its text. -/
abbrev Payload := String

/-- One element of `users.json`. -/
structure User where
  id : Nat
  name : String
  password : String
  canRetake : Bool
  createdAt : String
deriving DecidableEq, Repr

/-- One element of `testResults.json`. -/
structure TestResult where
  id : Nat
  studentName : String
  pattern : Payload
  score : Payload
  total : Payload
  answers : Payload
  pdfDownloaded : Bool
  submittedAt : String
  ip : String
deriving DecidableEq, Repr

/-- The persisted state: the contents of `users.json` and `testResults.json`. -/
structure Store where
  users : List User
  results : List TestResult
deriving DecidableEq, Repr

/-- What a request reads from its environment. -/
structure Env where
  /-- Models `Date.now()`. -/
  now : Nat
  /-- Models `new Date().toISOString()`. -/
  nowIso : String
  /-- Models `req.headers['x-forwarded-for']`. -/
  forwardedFor : Option String
  /-- Models `req.connection.remoteAddress`. -/
  remoteAddress : String
deriving DecidableEq, Repr

/-- The JSON body of a response. -/
inductive Body where
  /-- The body `{ error }`. -/
  | error (error : String)
  /-- The body `{ success: true, message, user: { name, canRetake } }`. -/
  | user (message : String) (name : String) (canRetake : Bool)
  /-- The body `{ canRetake, hasCompleted }`. -/
  | eligibility (canRetake : Bool) (hasCompleted : Bool)
  /-- The body `{ success: true, message }`. -/
  | ack (message : String)
  /-- The body `{ results }`. -/
  | results (results : List TestResult)
  /-- The body `{ users, results, totalUsers, totalTests }`. -/
  | adminData (users : List User) (results : List TestResult) (totalUsers : Nat)
      (totalTests : Nat)
deriving DecidableEq, Repr

/-- An HTTP response: status code and JSON body. -/
structure Response where
  status : Nat
  body : Body
deriving DecidableEq, Repr

/-! ## Array helpers -/

/-- Models `Array.prototype.findIndex`; `none` stands for `-1`. -/
def findIndex {α : Type} (p : α → Bool) : List α → Option Nat
  | [] => none
  | x :: xs => if p x then some 0 else (findIndex p xs).map (· + 1)

/-- Models `users[i].canRetake = b`. -/
def setCanRetake (users : List User) (i : Nat) (b : Bool) : List User :=
  match users[i]? with
  | some u => users.set i { u with canRetake := b }
  | none => users

/-- Models `req.headers['x-forwarded-for'] || req.connection.remoteAddress`. -/
def clientIp (env : Env) : String :=
  match env.forwardedFor with
  | some h => if h = "" then env.remoteAddress else h
  | none => env.remoteAddress

/-- The fixed second-chance password of `/api/verify-second-chance`. -/
def secondChancePassword : String := "choice2ellen"

/-! ## Handlers -/

/-- Models `POST /api/auth`. -/
def authenticate (ops : StringOps) (env : Env) (name password : String) (s : Store) :
    Response × Store :=
  if name = "" ∨ password = "" then
    (⟨400, .error "Name and password required"⟩, s)
  else
    match s.users.find? (fun u => ops.toLowerCase u.name == ops.toLowerCase name) with
    | some existingUser =>
      if existingUser.password ≠ password then
        (⟨401, .error "Invalid password"⟩, s)
      else
        (⟨200, .user "Login successful" existingUser.name existingUser.canRetake⟩, s)
    | none =>
      let newUser : User :=
        { id := env.now, name := ops.trim name, password := password, canRetake := true,
          createdAt := env.nowIso }
      (⟨200, .user "Registration successful" newUser.name true⟩,
        { s with users := s.users ++ [newUser] })

/-- Models `GET /api/can-take-test/:name`. -/
def canTakeTest (ops : StringOps) (name : String) (s : Store) : Response × Store :=
  match s.users.find? (fun u => ops.toLowerCase u.name == ops.toLowerCase name) with
  | none => (⟨404, .error "User not found"⟩, s)
  | some user =>
    let hasCompleted := s.results.any
      (fun r => ops.toLowerCase r.studentName == ops.toLowerCase name && r.pdfDownloaded)
    (⟨200, .eligibility (user.canRetake && !hasCompleted) hasCompleted⟩, s)

/-- The record `testResult` that `POST /api/submit-test` builds from the request. -/
def newTestResult (env : Env) (studentName : String) (pattern score total answers : Payload)
    (pdfDownloaded : Bool) : TestResult where
  id := env.now
  studentName := studentName
  pattern := pattern
  score := score
  total := total
  answers := answers
  pdfDownloaded := pdfDownloaded || false
  submittedAt := env.nowIso
  ip := clientIp env

/-- Models `POST /api/submit-test`. -/
def submitTest (ops : StringOps) (env : Env) (studentName : String)
    (pattern score total answers : Payload) (pdfDownloaded : Bool) (s : Store) :
    Response × Store :=
  if studentName = "" then
    (⟨400, .error "Student name required"⟩, s)
  else
    match s.results.find? (fun r =>
        ops.toLowerCase r.studentName == ops.toLowerCase studentName && r.pdfDownloaded) with
    | some _ => (⟨400, .error "Test already completed and PDF downloaded"⟩, s)
    | none =>
      let testResult := newTestResult env studentName pattern score total answers pdfDownloaded
      let results :=
        match findIndex (fun r => ops.toLowerCase r.studentName == ops.toLowerCase studentName)
            s.results with
        | some resultIndex => s.results.set resultIndex testResult
        | none => s.results ++ [testResult]
      let users :=
        if pdfDownloaded then
          match findIndex (fun u => ops.toLowerCase u.name == ops.toLowerCase studentName)
              s.users with
          | some userIndex => setCanRetake s.users userIndex false
          | none => s.users
        else s.users
      (⟨200, .ack "Test result saved"⟩, { users := users, results := results })

/-- Models `POST /api/verify-second-chance`. -/
def grantSecondChance (ops : StringOps) (password studentName : String) (s : Store) :
    Response × Store :=
  if password ≠ secondChancePassword then
    (⟨401, .error "Invalid second chance password"⟩, s)
  else
    match s.users.find? (fun u => ops.toLowerCase u.name == ops.toLowerCase studentName) with
    | none => (⟨404, .error "User not found"⟩, s)
    | some _ =>
      let users :=
        match findIndex (fun u => ops.toLowerCase u.name == ops.toLowerCase studentName)
            s.users with
        | some userIndex => setCanRetake s.users userIndex true
        | none => s.users
      let filteredResults := s.results.filter
        (fun r => ops.toLowerCase r.studentName != ops.toLowerCase studentName)
      let results :=
        if filteredResults.length ≠ s.results.length then filteredResults else s.results
      (⟨200, .ack "Second chance granted, you can retake the test"⟩,
        { users := users, results := results })

/-- Models `GET /api/test-results/:name`. -/
def getResults (ops : StringOps) (name : String) (s : Store) : Response × Store :=
  (⟨200, .results (s.results.filter
      (fun r => ops.toLowerCase r.studentName == ops.toLowerCase name))⟩, s)

/-- Models `GET /api/admin/data`. -/
def adminListAll (s : Store) : Response × Store :=
  (⟨200, .adminData (s.users.map (fun u => { u with password := "***" })) s.results
      s.users.length s.results.length⟩, s)

/-- Models `POST /api/admin/reset-user/:name`. -/
def adminResetUser (ops : StringOps) (name : String) (s : Store) : Response × Store :=
  match findIndex (fun u => ops.toLowerCase u.name == ops.toLowerCase name) s.users with
  | none => (⟨404, .error "User not found"⟩, s)
  | some userIndex =>
    let users := setCanRetake s.users userIndex true
    let filteredResults := s.results.filter
      (fun r => ops.toLowerCase r.studentName != ops.toLowerCase name)
    (⟨200, .ack "User reset successfully"⟩, { users := users, results := filteredResults })

/-! ## Operations as data -/

/-- The four state-changing operations with their request inputs. -/
inductive Op where
  | authenticate (name password : String)
  | submitTest (studentName : String) (pattern score total answers : Payload)
      (pdfDownloaded : Bool)
  | grantSecondChance (password studentName : String)
  | adminResetUser (name : String)
deriving DecidableEq, Repr

/-- Runs one operation on a store. -/
def Op.run (ops : StringOps) (env : Env) : Op → Store → Response × Store
  | .authenticate name password => Xamplore.authenticate ops env name password
  | .submitTest n p sc t a pdf => Xamplore.submitTest ops env n p sc t a pdf
  | .grantSecondChance password n => Xamplore.grantSecondChance ops password n
  | .adminResetUser n => Xamplore.adminResetUser ops n

/-! ## Predicates of the specification -/

/-- No two users have names that are equal after lower-casing. -/
def UniqueUsers (ops : StringOps) (users : List User) : Prop :=
  (users.map (fun u => ops.toLowerCase u.name)).Nodup

/-- No two test results have student names that are equal after lower-casing. -/
def UniqueResults (ops : StringOps) (results : List TestResult) : Prop :=
  (results.map (fun r => ops.toLowerCase r.studentName)).Nodup

instance (ops : StringOps) (users : List User) : Decidable (UniqueUsers ops users) := by
  unfold UniqueUsers; infer_instance

instance (ops : StringOps) (results : List TestResult) :
    Decidable (UniqueResults ops results) := by
  unfold UniqueResults; infer_instance

/-- Sample environment used for concrete evaluation. -/
def env0 : Env where
  now := 1700000000000
  nowIso := "2023-11-14T22:13:20.000Z"
  forwardedFor := none
  remoteAddress := "127.0.0.1"

/-- A registered user named `bob`. -/
def userBob : User where
  id := 1
  name := "bob"
  password := "pw1"
  canRetake := true
  createdAt := "2023-11-14T22:00:00.000Z"

/-- The store holding the single user `bob` and no test result. -/
def storeBob : Store where
  users := [userBob]
  results := []

/-- The empty store: both files hold `[]`. -/
def emptyStore : Store where
  users := []
  results := []

/-- A stored result of `bob` that is not finalized. -/
def resultBob : TestResult where
  id := 2
  studentName := "bob"
  pattern := "A"
  score := "3"
  total := "5"
  answers := "[]"
  pdfDownloaded := false
  submittedAt := "2023-11-14T22:05:00.000Z"
  ip := "127.0.0.1"

/-- Some test result stored under the name `name` is finalized (`pdfDownloaded = true`),
names compared after lower-casing. -/
def HasFinalResult (ops : StringOps) (name : String) (results : List TestResult) : Prop :=
  ∃ r ∈ results, ops.toLowerCase r.studentName = ops.toLowerCase name ∧ r.pdfDownloaded = true

/-- Some user has the name `name`, names compared after lower-casing. -/
def HasUser (ops : StringOps) (name : String) (users : List User) : Prop :=
  ∃ u ∈ users, ops.toLowerCase u.name = ops.toLowerCase name

instance (ops : StringOps) (name : String) (results : List TestResult) :
    Decidable (HasFinalResult ops name results) := by
  unfold HasFinalResult; infer_instance

instance (ops : StringOps) (name : String) (users : List User) :
    Decidable (HasUser ops name users) := by
  unfold HasUser; infer_instance

/-- The store after `Authenticate(" ", "pw")` on the empty store: one user whose name is
the empty string, the trimmed `" "`. -/
def storeNameless : Store where
  users := [{ id := env0.now, name := "", password := "pw", canRetake := true,
              createdAt := env0.nowIso }]
  results := []

/-- Every field of a user but the password: `(id, name, canRetake, createdAt)`. -/
def User.withoutPassword (u : User) : Nat × String × Bool × String :=
  (u.id, u.name, u.canRetake, u.createdAt)

/-- The fact of the runtime that `toLowerCase` returns the empty string for the empty string
and for no other string. -/
def LowerReflectsEmpty (ops : StringOps) : Prop :=
  ∀ s : String, ops.toLowerCase s = "" ↔ s = ""

/-- A test result with its student name lower-cased. -/
def TestResult.lowerName (ops : StringOps) (r : TestResult) : TestResult :=
  { r with studentName := ops.toLowerCase r.studentName }

/-- Models `POST /api/auth` on a request body whose fields may be missing: a missing field
is `undefined`, which the test `!name || !password` rejects like the empty string. -/
def authenticateBody (ops : StringOps) (env : Env) (name password : Option String)
    (s : Store) : Response × Store :=
  match name, password with
  | some n, some p => authenticate ops env n p s
  | _, _ => (⟨400, .error "Name and password required"⟩, s)

/-- Some test result is stored under the name `name`, names compared after lower-casing. -/
def HasResult (ops : StringOps) (name : String) (results : List TestResult) : Prop :=
  ∃ r ∈ results, ops.toLowerCase r.studentName = ops.toLowerCase name

instance (ops : StringOps) (name : String) (results : List TestResult) :
    Decidable (HasResult ops name results) := by
  unfold HasResult; infer_instance

/-- The fields of a user that no handler rewrites: `(id, name, password, createdAt)`. -/
def User.identity (u : User) : Nat × String × String × String :=
  (u.id, u.name, u.password, u.createdAt)

/-- The stores reachable from the empty store by a sequence of Authenticate, SubmitTest,
GrantSecondChance and AdminResetUser calls, each call with its own request environment. -/
inductive Reachable (ops : StringOps) : Store → Prop where
  | empty : Reachable ops emptyStore
  | step (env : Env) (op : Op) (s : Store) (h : Reachable ops s) :
      Reachable ops (op.run ops env s).2

/-- Lock consistency: every user with `canRetake = false` has a finalized result stored
under a name equal to the user's name after lower-casing. -/
def LockConsistent (ops : StringOps) (s : Store) : Prop :=
  ∀ u ∈ s.users, u.canRetake = false → HasFinalResult ops u.name s.results

/-- The strengthening of lock consistency that the operations preserve: a user with
`canRetake = false` is moreover the first user of its lower-cased name, the one the
handlers find. -/
def LockedFirst (ops : StringOps) (s : Store) : Prop :=
  ∀ (i : Nat) (u : User), s.users[i]? = some u → u.canRetake = false →
    (∀ (j : Nat) (v : User), j < i → s.users[j]? = some v →
      ops.toLowerCase v.name ≠ ops.toLowerCase u.name) ∧
    HasFinalResult ops u.name s.results

/-! ## Lemmas on the array helpers -/

theorem findIndex_eq_none_iff {α : Type} (p : α → Bool) (l : List α) :
    findIndex p l = none ↔ ∀ x ∈ l, p x = false := by
  induction l with
  | nil => simp [findIndex]
  | cons x xs ih =>
    by_cases hx : p x = true
    · simp [findIndex, hx]
    · simp [findIndex, hx, ih]

theorem find_eq_none_of_findIndex {α : Type} (p : α → Bool) (l : List α)
    (h : findIndex p l = none) : l.find? p = none := by
  rw [List.find?_eq_none]
  intro x hx
  simp [(findIndex_eq_none_iff p l).1 h x hx]

theorem findIndex_isSome_of_find {α : Type} (p : α → Bool) (l : List α) (x : α)
    (h : l.find? p = some x) : ∃ i, findIndex p l = some i := by
  cases hi : findIndex p l with
  | none => rw [find_eq_none_of_findIndex p l hi] at h; cases h
  | some i => exact ⟨i, rfl⟩

theorem findIndex_some_spec {α : Type} (p : α → Bool) (l : List α) (i : Nat)
    (h : findIndex p l = some i) :
    ∃ x, l[i]? = some x ∧ p x = true ∧ l.find? p = some x := by
  induction l generalizing i with
  | nil => simp [findIndex] at h
  | cons y ys ih =>
    by_cases hy : p y = true
    · simp [findIndex, hy] at h
      subst h
      exact ⟨y, by simp, hy, by simp [hy]⟩
    · simp only [findIndex, hy, Bool.false_eq_true, if_false, Option.map_eq_some'] at h
      obtain ⟨j, hj, rfl⟩ := h
      obtain ⟨x, hx1, hx2, hx3⟩ := ih j hj
      exact ⟨x, by simpa using hx1, hx2, by simpa [List.find?_cons, hy] using hx3⟩

theorem setCanRetake_cons_zero (u : User) (us : List User) (b : Bool) :
    setCanRetake (u :: us) 0 b = { u with canRetake := b } :: us := by
  simp [setCanRetake]

theorem setCanRetake_cons_succ (u : User) (us : List User) (i : Nat) (b : Bool) :
    setCanRetake (u :: us) (i + 1) b = u :: setCanRetake us i b := by
  simp only [setCanRetake, List.getElem?_cons_succ]
  cases us[i]? <;> simp

theorem setCanRetake_nil (i : Nat) (b : Bool) : setCanRetake [] i b = [] := by
  simp [setCanRetake]

/-- Setting `canRetake` changes no name. -/
theorem map_name_setCanRetake (us : List User) (i : Nat) (b : Bool) :
    (setCanRetake us i b).map (fun u => u.name) = us.map (fun u => u.name) := by
  induction us generalizing i with
  | nil => simp [setCanRetake_nil]
  | cons u us ih =>
    cases i with
    | zero => simp [setCanRetake_cons_zero]
    | succ i => simp [setCanRetake_cons_succ, ih]

/-- After `users[i].canRetake = b` at the index `findIndex` returned, `find` with the same
name test returns the same user with `canRetake = b`. -/
theorem find_setCanRetake (ops : StringOps) (k : String) (us : List User) (i : Nat) (b : Bool)
    (h : findIndex (fun u => ops.toLowerCase u.name == k) us = some i) :
    ∃ u, us.find? (fun u => ops.toLowerCase u.name == k) = some u ∧
      (setCanRetake us i b).find? (fun u => ops.toLowerCase u.name == k)
        = some { u with canRetake := b } := by
  induction us generalizing i with
  | nil => simp [findIndex] at h
  | cons y ys ih =>
    by_cases hy : (ops.toLowerCase y.name == k) = true
    · simp [findIndex, hy] at h
      subst h
      refine ⟨y, by simp [hy], ?_⟩
      rw [setCanRetake_cons_zero]
      simp [List.find?_cons, hy]
    · simp only [findIndex, hy, Bool.false_eq_true, if_false, Option.map_eq_some'] at h
      obtain ⟨j, hj, rfl⟩ := h
      obtain ⟨u, hu1, hu2⟩ := ih j hj
      refine ⟨u, by simpa [List.find?_cons, hy] using hu1, ?_⟩
      rw [setCanRetake_cons_succ]
      simpa [List.find?_cons, hy] using hu2

/-- A filter that keeps the length keeps the list: the conditional write of
`/api/verify-second-chance` stores the filtered list in either branch. -/
theorem filter_of_length_eq {α : Type} (p : α → Bool) (l : List α)
    (h : (l.filter p).length = l.length) : l.filter p = l :=
  List.filter_eq_self.2 (List.filter_length_eq_length.1 h)

/-- Replacing the element at the index `findIndex` returned by one with the same key keeps
the list of keys. -/
theorem map_set_of_findIndex {α : Type} (f : α → String) (k : String) (t : α) (l : List α)
    (i : Nat) (h : findIndex (fun r => f r == k) l = some i) (ht : f t = k) :
    (l.set i t).map f = l.map f := by
  induction l generalizing i with
  | nil => simp [findIndex] at h
  | cons y ys ih =>
    by_cases hy : (f y == k) = true
    · simp [findIndex, hy] at h
      subst h
      have : f y = k := by simpa using hy
      simp [ht, this]
    · simp only [findIndex, hy, Bool.false_eq_true, if_false, Option.map_eq_some'] at h
      obtain ⟨j, hj, rfl⟩ := h
      simp [ih j hj]

/-- The upsert of `/api/submit-test` keeps the results unique by lower-cased name. -/
theorem uniqueResults_upsert (ops : StringOps) (studentName : String) (t : TestResult)
    (rs : List TestResult) (ht : t.studentName = studentName) (h : UniqueResults ops rs) :
    UniqueResults ops
      (match findIndex (fun r => ops.toLowerCase r.studentName == ops.toLowerCase studentName)
          rs with
      | some resultIndex => rs.set resultIndex t
      | none => rs ++ [t]) := by
  unfold UniqueResults at *
  cases hi : findIndex (fun r => ops.toLowerCase r.studentName == ops.toLowerCase studentName)
      rs with
  | some i =>
    simp only []
    rw [map_set_of_findIndex (fun r => ops.toLowerCase r.studentName) _ t rs i hi (by simp only [ht])]
    exact h
  | none =>
    simp only [List.map_append, List.map_cons, List.map_nil]
    rw [List.nodup_append]
    refine ⟨h, List.nodup_singleton _, ?_⟩
    intro a ha ha2
    simp only [List.mem_singleton] at ha2
    subst ha2
    obtain ⟨r, hr, hrk⟩ := List.mem_map.1 ha
    have := (findIndex_eq_none_iff _ rs).1 hi r hr
    simp [hrk, ht] at this

/-- Filtering keeps the results unique by lower-cased name. -/
theorem uniqueResults_filter (ops : StringOps) (p : TestResult → Bool) (rs : List TestResult)
    (h : UniqueResults ops rs) : UniqueResults ops (rs.filter p) :=
  List.Nodup.sublist ((List.filter_sublist rs).map _) h

/-- A user with a matching name is found by `findIndex`. -/
theorem findIndex_isSome_of_hasUser (ops : StringOps) (name : String) (us : List User)
    (h : HasUser ops name us) :
    ∃ i, findIndex (fun u => ops.toLowerCase u.name == ops.toLowerCase name) us = some i := by
  cases hi : findIndex (fun u => ops.toLowerCase u.name == ops.toLowerCase name) us with
  | some i => exact ⟨i, rfl⟩
  | none =>
    obtain ⟨u, hu, hk⟩ := h
    have := (findIndex_eq_none_iff _ us).1 hi u hu
    simp [hk] at this

/-- The record written by the upsert of `/api/submit-test` is in the list it produces. -/
theorem mem_upsert {α : Type} (p : α → Bool) (t : α) (l : List α) :
    t ∈ (match findIndex p l with
      | some resultIndex => l.set resultIndex t
      | none => l ++ [t]) := by
  cases hi : findIndex p l with
  | none => simp
  | some i =>
    obtain ⟨x, hx, -, -⟩ := findIndex_some_spec p l i hi
    obtain ⟨hlt, -⟩ := List.getElem?_eq_some.1 hx
    exact List.mem_set l i hlt t

/-- No finalized result under a name: `find` with the finalized-and-matching test fails. -/
theorem find_final_eq_none (ops : StringOps) (name : String) (rs : List TestResult)
    (h : ∀ r ∈ rs, ops.toLowerCase r.studentName ≠ ops.toLowerCase name) :
    rs.find? (fun r =>
      ops.toLowerCase r.studentName == ops.toLowerCase name && r.pdfDownloaded) = none := by
  rw [List.find?_eq_none]
  intro r hr
  simp [h r hr]

/-- After the upsert of a finalized record the finalized-and-matching test holds somewhere. -/
theorem any_upsert_final (ops : StringOps) (name : String) (t : TestResult)
    (rs : List TestResult) (hk : t.studentName = name) (hp : t.pdfDownloaded = true) :
    (match findIndex
        (fun (r : TestResult) => ops.toLowerCase r.studentName == ops.toLowerCase name) rs with
      | some resultIndex => rs.set resultIndex t
      | none => rs ++ [t]).any
        (fun (r : TestResult) =>
          ops.toLowerCase r.studentName == ops.toLowerCase name && r.pdfDownloaded)
      = true := by
  rw [List.any_eq_true]
  exact ⟨t, mem_upsert _ t rs, by simp [hk, hp]⟩

/-- A finalized result under a name is found by the finalized-and-matching `find`. -/
theorem find_final_isSome (ops : StringOps) (name : String) (rs : List TestResult)
    (h : HasFinalResult ops name rs) :
    ∃ r, rs.find? (fun r =>
      ops.toLowerCase r.studentName == ops.toLowerCase name && r.pdfDownloaded) = some r := by
  cases hf : rs.find? (fun r =>
      ops.toLowerCase r.studentName == ops.toLowerCase name && r.pdfDownloaded) with
  | some r => exact ⟨r, rfl⟩
  | none =>
    obtain ⟨r, hr, hk, hp⟩ := h
    have := List.find?_eq_none.1 hf r hr
    simp [hk, hp] at this

/-- A user with a matching name is found by `find`. -/
theorem find_isSome_of_hasUser (ops : StringOps) (name : String) (us : List User)
    (h : HasUser ops name us) :
    ∃ u, us.find? (fun u => ops.toLowerCase u.name == ops.toLowerCase name) = some u := by
  obtain ⟨i, hi⟩ := findIndex_isSome_of_hasUser ops name us h
  obtain ⟨u, -, -, hu⟩ := findIndex_some_spec _ us i hi
  exact ⟨u, hu⟩

/-- The results kept by the filter of the reset handlers carry another name. -/
theorem filter_other_names (ops : StringOps) (name : String) (rs : List TestResult) :
    ∀ r ∈ rs.filter (fun r => ops.toLowerCase r.studentName != ops.toLowerCase name),
      ops.toLowerCase r.studentName ≠ ops.toLowerCase name := by
  intro r hr
  have := (List.mem_filter.1 hr).2
  simpa using this

/-- The store that `/api/verify-second-chance` leaves when the password is right and a user
matches: `canRetake` set at the index found, results of that name filtered out. -/
theorem grantSecondChance_ok (ops : StringOps) (name : String) (s : Store) (i : Nat)
    (hi : findIndex (fun u => ops.toLowerCase u.name == ops.toLowerCase name) s.users = some i) :
    grantSecondChance ops "choice2ellen" name s =
      (⟨200, .ack "Second chance granted, you can retake the test"⟩,
        { users := setCanRetake s.users i true,
          results := s.results.filter
            (fun r => ops.toLowerCase r.studentName != ops.toLowerCase name) }) := by
  obtain ⟨u, -, -, hu⟩ := findIndex_some_spec _ s.users i hi
  have hpw : ¬ ("choice2ellen" ≠ secondChancePassword) := by decide
  unfold grantSecondChance
  simp only [hpw, if_false, hu, hi]
  by_cases hl : (s.results.filter
      (fun r => ops.toLowerCase r.studentName != ops.toLowerCase name)).length = s.results.length
  · simp only [hl, ne_eq, not_true_eq_false, if_false]
    rw [filter_of_length_eq _ _ hl]
  · simp only [ne_eq, hl, not_false_eq_true, if_true]

/-- The redaction of `/api/admin/data` is a function of the fields other than the password. -/
theorem redact_eq_of_withoutPassword (u v : User)
    (h : u.withoutPassword = v.withoutPassword) :
    ({ u with password := "***" } : User) = { v with password := "***" } := by
  cases u; cases v
  simp only [User.withoutPassword, Prod.mk.injEq] at h
  obtain ⟨h1, h2, h3, h4⟩ := h
  simp [h1, h2, h3, h4]

theorem map_redact_eq (us vs : List User)
    (h : us.map User.withoutPassword = vs.map User.withoutPassword) :
    us.map (fun u => ({ u with password := "***" } : User))
      = vs.map (fun u => ({ u with password := "***" } : User)) := by
  induction us generalizing vs with
  | nil =>
    cases vs with
    | nil => rfl
    | cons v vs => simp at h
  | cons u us ih =>
    cases vs with
    | nil => simp at h
    | cons v vs =>
      simp only [List.map_cons, List.cons.injEq] at h ⊢
      exact ⟨redact_eq_of_withoutPassword u v h.1, ih vs h.2⟩

/-- No user matches a name exactly when `findIndex` with the name test returns `none`. -/
theorem findIndex_eq_none_iff_not_hasUser (ops : StringOps) (name : String) (us : List User) :
    findIndex (fun u => ops.toLowerCase u.name == ops.toLowerCase name) us = none
      ↔ ¬ HasUser ops name us := by
  rw [findIndex_eq_none_iff]
  unfold HasUser
  constructor
  · rintro h ⟨u, hu, hk⟩
    have := h u hu
    simp [hk] at this
  · intro h u hu
    by_cases hk : ops.toLowerCase u.name = ops.toLowerCase name
    · exact absurd ⟨u, hu, hk⟩ h
    · simpa using hk

/-- The ASCII instance maps only the empty string to the empty string. -/
theorem asciiOps_lowerReflectsEmpty : LowerReflectsEmpty asciiOps := by
  intro s
  cases s with
  | mk cs =>
    cases cs with
    | nil => simp [asciiOps]
    | cons c cs =>
      constructor
      · intro h
        have := congrArg String.data h
        simp [asciiOps] at this
      · intro h
        have := congrArg String.data h
        simp at this

/-- The store that `/api/submit-test` leaves, and its answer, when the name is not empty and
no finalized result is stored under it. -/
theorem submitTest_ok (ops : StringOps) (env : Env) (name : String)
    (pattern score total answers : Payload) (pdfDownloaded : Bool) (s : Store)
    (hne : name ≠ "")
    (hnone : s.results.find? (fun r =>
      ops.toLowerCase r.studentName == ops.toLowerCase name && r.pdfDownloaded) = none) :
    submitTest ops env name pattern score total answers pdfDownloaded s =
      (⟨200, .ack "Test result saved"⟩,
        { users :=
            if pdfDownloaded then
              match findIndex (fun u => ops.toLowerCase u.name == ops.toLowerCase name)
                  s.users with
              | some userIndex => setCanRetake s.users userIndex false
              | none => s.users
            else s.users,
          results :=
            match findIndex (fun r => ops.toLowerCase r.studentName == ops.toLowerCase name)
                s.results with
            | some resultIndex => s.results.set resultIndex
                (newTestResult env name pattern score total answers pdfDownloaded)
            | none => s.results ++
                [newTestResult env name pattern score total answers pdfDownloaded] }) := by
  unfold submitTest
  simp only [hne, if_false, hnone]

/-- A successful `/api/submit-test` had a non-empty name and found no finalized result. -/
theorem submitTest_success_inv (ops : StringOps) (env : Env) (name : String)
    (pattern score total answers : Payload) (pdfDownloaded : Bool) (s : Store)
    (hs : (submitTest ops env name pattern score total answers pdfDownloaded s).1.status = 200) :
    name ≠ "" ∧ s.results.find? (fun r =>
      ops.toLowerCase r.studentName == ops.toLowerCase name && r.pdfDownloaded) = none := by
  unfold submitTest at hs
  split at hs
  · simp at hs
  · split at hs
    · simp at hs
    · rename_i hne _ hnone
      exact ⟨hne, hnone⟩

/-- The upsert of `/api/submit-test` under two names with the same lower-cased form gives
the same list once the stored names are lower-cased. -/
theorem map_lowerName_upsert (ops : StringOps) (k : String) (t₁ t₂ : TestResult)
    (rs : List TestResult) (ht : t₁.lowerName ops = t₂.lowerName ops) :
    (match findIndex (fun (r : TestResult) => ops.toLowerCase r.studentName == k) rs with
      | some resultIndex => rs.set resultIndex t₁
      | none => rs ++ [t₁]).map (TestResult.lowerName ops)
    = (match findIndex (fun (r : TestResult) => ops.toLowerCase r.studentName == k) rs with
      | some resultIndex => rs.set resultIndex t₂
      | none => rs ++ [t₂]).map (TestResult.lowerName ops) := by
  cases findIndex (fun (r : TestResult) => ops.toLowerCase r.studentName == k) rs with
  | none => simp [ht]
  | some i => simp [List.map_set, ht]

/-- No user matches a name exactly when `find` with the name test returns `none`. -/
theorem find_eq_none_iff_not_hasUser (ops : StringOps) (name : String) (us : List User) :
    us.find? (fun u => ops.toLowerCase u.name == ops.toLowerCase name) = none
      ↔ ¬ HasUser ops name us := by
  constructor
  · intro h hu
    obtain ⟨u, hf⟩ := find_isSome_of_hasUser ops name us hu
    rw [h] at hf
    cases hf
  · intro h
    exact find_eq_none_of_findIndex _ _ ((findIndex_eq_none_iff_not_hasUser ops name us).2 h)

/-- The index `findIndex` returns splits the list: nothing before it passes the test, the
element at it does, and an assignment at it replaces exactly that element. -/
theorem findIndex_some_split {α : Type} (p : α → Bool) (l : List α) (i : Nat)
    (h : findIndex p l = some i) :
    ∃ pre x post, l = pre ++ x :: post ∧ pre.length = i ∧ (∀ a ∈ pre, p a = false) ∧
      p x = true ∧ ∀ t, l.set i t = pre ++ t :: post := by
  induction l generalizing i with
  | nil => simp [findIndex] at h
  | cons y ys ih =>
    by_cases hy : p y = true
    · simp [findIndex, hy] at h
      subst h
      exact ⟨[], y, ys, rfl, rfl, by simp, hy, fun t => rfl⟩
    · simp only [findIndex, hy, Bool.false_eq_true, if_false, Option.map_eq_some'] at h
      obtain ⟨j, hj, rfl⟩ := h
      obtain ⟨pre, x, post, hl, hlen, hpre, hx, hset⟩ := ih j hj
      refine ⟨y :: pre, x, post, by simp [hl], by simp [hlen], ?_, hx, ?_⟩
      · intro a ha
        rcases List.mem_cons.1 ha with rfl | ha
        · simpa using hy
        · exact hpre a ha
      · intro t
        simp [hset t]

/-- No result is stored under a name exactly when `findIndex` with the name test on the
results returns `none`. -/
theorem findIndex_eq_none_iff_not_hasResult (ops : StringOps) (name : String)
    (rs : List TestResult) :
    findIndex (fun r => ops.toLowerCase r.studentName == ops.toLowerCase name) rs = none
      ↔ ¬ HasResult ops name rs := by
  rw [findIndex_eq_none_iff]
  unfold HasResult
  constructor
  · rintro h ⟨r, hr, hk⟩
    have := h r hr
    simp [hk] at this
  · intro h r hr
    by_cases hk : ops.toLowerCase r.studentName = ops.toLowerCase name
    · exact absurd ⟨r, hr, hk⟩ h
    · simpa using hk

/-- The assignment `users[i].canRetake = b` at the index `findIndex` returned for a name: the
list splits around the first user with that name, and only its `canRetake` changes. -/
theorem setCanRetake_of_findIndex (ops : StringOps) (name : String) (us : List User) (i : Nat)
    (b : Bool)
    (h : findIndex (fun u => ops.toLowerCase u.name == ops.toLowerCase name) us = some i) :
    ∃ pre u post, us = pre ++ u :: post ∧ pre.length = i ∧
      (∀ a ∈ pre, ops.toLowerCase a.name ≠ ops.toLowerCase name) ∧
      ops.toLowerCase u.name = ops.toLowerCase name ∧
      setCanRetake us i b = pre ++ { u with canRetake := b } :: post := by
  obtain ⟨pre, u, post, hl, hlen, hpre, hu, hset⟩ := findIndex_some_split _ us i h
  refine ⟨pre, u, post, hl, hlen, ?_, by simpa using hu, ?_⟩
  · intro a ha
    simpa using hpre a ha
  · have hget : us[i]? = some u := by
      rw [hl, ← hlen, List.getElem?_append_right (Nat.le_refl _)]
      simp
    unfold setCanRetake
    simp only [hget, hset]

/-- Setting `canRetake` changes no other field. -/
theorem map_identity_setCanRetake (us : List User) (i : Nat) (b : Bool) :
    (setCanRetake us i b).map User.identity = us.map User.identity := by
  induction us generalizing i with
  | nil => simp [setCanRetake_nil]
  | cons u us ih =>
    cases i with
    | zero => simp [setCanRetake_cons_zero, User.identity]
    | succ i => simp [setCanRetake_cons_succ, ih]

theorem length_setCanRetake (us : List User) (i : Nat) (b : Bool) :
    (setCanRetake us i b).length = us.length := by
  simpa using congrArg List.length (map_identity_setCanRetake us i b)

/-- The Users an operation leaves: the old list, the old list with one `canRetake`
assigned, or, for an Authenticate with non-empty name and password that matches no user,
the old list with one new user at the end. -/
theorem users_after_run (ops : StringOps) (env : Env) (op : Op) (s : Store) :
    (op.run ops env s).2.users = s.users ∨
    (∃ i b, (op.run ops env s).2.users = setCanRetake s.users i b) ∨
    (∃ n p, op = .authenticate n p ∧ n ≠ "" ∧ p ≠ "" ∧ ¬ HasUser ops n s.users ∧
      (op.run ops env s).2.users = s.users ++ [⟨env.now, ops.trim n, p, true, env.nowIso⟩]) := by
  cases op with
  | authenticate n p =>
    simp only [Op.run, authenticate]
    split
    · exact Or.inl rfl
    · rename_i hnp
      split
      · split <;> exact Or.inl rfl
      · rename_i hnone
        refine Or.inr (Or.inr ⟨n, p, rfl, fun h => hnp (Or.inl h), fun h => hnp (Or.inr h),
          (find_eq_none_iff_not_hasUser ops n s.users).1 hnone, rfl⟩)
  | submitTest n p sc t a pdf =>
    simp only [Op.run, submitTest]
    split
    · exact Or.inl rfl
    · split
      · exact Or.inl rfl
      · simp only []
        split
        · split
          · exact Or.inr (Or.inl ⟨_, _, rfl⟩)
          · exact Or.inl rfl
        · exact Or.inl rfl
  | grantSecondChance password n =>
    simp only [Op.run, grantSecondChance]
    split
    · exact Or.inl rfl
    · split
      · exact Or.inl rfl
      · simp only []
        split
        · exact Or.inr (Or.inl ⟨_, _, rfl⟩)
        · exact Or.inl rfl
  | adminResetUser n =>
    simp only [Op.run, adminResetUser]
    split
    · exact Or.inl rfl
    · exact Or.inr (Or.inl ⟨_, _, rfl⟩)

/-- What an operation does to the store, in four cases: nothing; a new user appended (by
Authenticate); a record upserted and possibly the first matching user locked (by a successful
SubmitTest); the first matching user unlocked and the results of the name removed (by a
successful GrantSecondChance or AdminResetUser). -/
theorem run_cases (ops : StringOps) (env : Env) (op : Op) (s : Store) :
    (op.run ops env s).2 = s ∨
    (∃ u : User, u.canRetake = true ∧ (op.run ops env s).2 = ⟨s.users ++ [u], s.results⟩) ∨
    (∃ (name : String) (t : TestResult), t.studentName = name ∧
      ¬ HasFinalResult ops name s.results ∧
      (op.run ops env s).2.results =
        (match findIndex (fun r => ops.toLowerCase r.studentName == ops.toLowerCase name)
            s.results with
          | some resultIndex => s.results.set resultIndex t
          | none => s.results ++ [t]) ∧
      ((op.run ops env s).2.users = s.users ∨
        (t.pdfDownloaded = true ∧ ∃ i,
          findIndex (fun u => ops.toLowerCase u.name == ops.toLowerCase name) s.users = some i ∧
          (op.run ops env s).2.users = setCanRetake s.users i false))) ∨
    (∃ (name : String) (i : Nat),
      findIndex (fun u => ops.toLowerCase u.name == ops.toLowerCase name) s.users = some i ∧
      (op.run ops env s).2 = ⟨setCanRetake s.users i true,
        s.results.filter (fun r => ops.toLowerCase r.studentName != ops.toLowerCase name)⟩) := by
  cases op with
  | authenticate n p =>
    simp only [Op.run, authenticate]
    split
    · exact Or.inl rfl
    · split
      · split <;> exact Or.inl rfl
      · exact Or.inr (Or.inl ⟨_, rfl, rfl⟩)
  | submitTest n p sc t a pdf =>
    by_cases hne : n = ""
    · left
      simp [Op.run, submitTest, hne]
    · cases hf : s.results.find? (fun r =>
          ops.toLowerCase r.studentName == ops.toLowerCase n && r.pdfDownloaded) with
      | some r =>
        left
        simp only [Op.run, submitTest, hne, if_false, hf]
      | none =>
        right; right; left
        have hnf : ¬ HasFinalResult ops n s.results := by
          intro h
          obtain ⟨r, hr⟩ := find_final_isSome ops n s.results h
          rw [hf] at hr
          cases hr
        simp only [Op.run]
        rw [submitTest_ok ops env n p sc t a pdf s hne hf]
        refine ⟨n, newTestResult env n p sc t a pdf, rfl, hnf, rfl, ?_⟩
        cases pdf with
        | false => exact Or.inl rfl
        | true =>
          cases hi : findIndex (fun u => ops.toLowerCase u.name == ops.toLowerCase n)
              s.users with
          | none => exact Or.inl (by simp)
          | some i => exact Or.inr ⟨rfl, i, rfl, by simp⟩
  | grantSecondChance password n =>
    by_cases hpw : password = "choice2ellen"
    · subst hpw
      cases hi : findIndex (fun u => ops.toLowerCase u.name == ops.toLowerCase n) s.users with
      | none =>
        left
        have hpw : ¬ ("choice2ellen" ≠ secondChancePassword) := by decide
        simp only [Op.run, grantSecondChance, hpw, if_false, find_eq_none_of_findIndex _ _ hi]
      | some i =>
        right; right; right
        exact ⟨n, i, hi, by simp only [Op.run, grantSecondChance_ok ops n s i hi]⟩
    · left
      have hpw' : password ≠ secondChancePassword := hpw
      simp only [Op.run, grantSecondChance, hpw', ne_eq, not_false_eq_true, if_true]
  | adminResetUser n =>
    cases hi : findIndex (fun u => ops.toLowerCase u.name == ops.toLowerCase n) s.users with
    | none =>
      left
      simp only [Op.run, adminResetUser, hi]
    | some i =>
      right; right; right
      exact ⟨n, i, hi, by simp only [Op.run, adminResetUser, hi]⟩

/-- Every operation keeps the results unique by lower-cased name. -/
theorem uniqueResults_run (ops : StringOps) (env : Env) (op : Op) (s : Store)
    (h : UniqueResults ops s.results) : UniqueResults ops (op.run ops env s).2.results := by
  rcases run_cases ops env op s with e | ⟨u, -, e⟩ | ⟨name, t, ht, -, e, -⟩ | ⟨name, i, -, e⟩
  · rw [e]; exact h
  · rw [e]; exact h
  · rw [e]; exact uniqueResults_upsert ops name t s.results ht h
  · rw [e]; exact uniqueResults_filter ops _ s.results h

/-- The results of a reachable store are unique by lower-cased name. -/
theorem reachable_uniqueResults (ops : StringOps) (s : Store) (h : Reachable ops s) :
    UniqueResults ops s.results := by
  induction h with
  | empty => simp [UniqueResults, emptyStore]
  | step env op s _ ih => exact uniqueResults_run ops env op s ih

/-- Among results that are unique by key, at most one has a given key. -/
theorem length_filter_key_le_one (ops : StringOps) (k : String) (rs : List TestResult)
    (h : UniqueResults ops rs) :
    (rs.filter (fun r => ops.toLowerCase r.studentName == k)).length ≤ 1 := by
  unfold UniqueResults at h
  induction rs with
  | nil => simp
  | cons r rs ih =>
    rw [List.map_cons, List.nodup_cons] at h
    by_cases hk : ops.toLowerCase r.studentName = k
    · have hnone : rs.filter (fun r => ops.toLowerCase r.studentName == k) = [] := by
        rw [List.filter_eq_nil_iff]
        intro x hx hxk
        apply h.1
        have hxk' : ops.toLowerCase x.studentName = k := by simpa using hxk
        rw [hk, ← hxk']
        exact List.mem_map_of_mem _ hx
      simp [List.filter_cons, hk, hnone]
    · simp only [List.filter_cons, beq_iff_eq, hk, if_false]
      exact ih h.2

/-- Reading the users after `users[i].canRetake = b`. -/
theorem getElem?_setCanRetake (us : List User) (i j : Nat) (b : Bool) :
    (setCanRetake us i b)[j]? =
      if j = i then (us[i]?).map (fun u => { u with canRetake := b }) else us[j]? := by
  unfold setCanRetake
  cases h : us[i]? with
  | none =>
    by_cases hj : j = i
    · subst hj; simp [h]
    · simp [hj]
  | some u =>
    have hlt : i < us.length := (List.getElem?_eq_some.1 h).1
    by_cases hj : j = i
    · subst hj; simp [List.getElem?_set, hlt]
    · have hij : i ≠ j := fun e => hj e.symm
      simp [List.getElem?_set, hij, hj]

/-- Nothing before the index `findIndex` returns passes the test. -/
theorem findIndex_some_min {α : Type} (p : α → Bool) (l : List α) (i : Nat)
    (h : findIndex p l = some i) : ∀ j v, j < i → l[j]? = some v → p v = false := by
  obtain ⟨pre, x, post, hl, hlen, hpre, -, -⟩ := findIndex_some_split p l i h
  intro j v hj hv
  rw [hl, List.getElem?_append_left (by omega)] at hv
  exact hpre v (List.mem_iff_getElem?.2 ⟨j, hv⟩)

/-- The upsert under one name keeps the finalized results of the other names. -/
theorem hasFinalResult_upsert (ops : StringOps) (name k : String) (t : TestResult)
    (rs : List TestResult) (hk : ops.toLowerCase k ≠ ops.toLowerCase name)
    (h : HasFinalResult ops k rs) :
    HasFinalResult ops k
      (match findIndex (fun (r : TestResult) =>
          ops.toLowerCase r.studentName == ops.toLowerCase name) rs with
        | some resultIndex => rs.set resultIndex t
        | none => rs ++ [t]) := by
  obtain ⟨r, hr, hrk, hrp⟩ := h
  cases hi : findIndex (fun (r : TestResult) =>
      ops.toLowerCase r.studentName == ops.toLowerCase name) rs with
  | none => exact ⟨r, by simp [hr], hrk, hrp⟩
  | some i =>
    obtain ⟨pre, old, post, hl, -, -, hold, hset⟩ := findIndex_some_split _ rs i hi
    have hold' : ops.toLowerCase old.studentName = ops.toLowerCase name := by simpa using hold
    refine ⟨r, ?_, hrk, hrp⟩
    simp only [hset]
    rw [hl] at hr
    rcases List.mem_append.1 hr with hr | hr
    · exact List.mem_append_left _ hr
    · rcases List.mem_cons.1 hr with rfl | hr
      · exact absurd (hrk.symm.trans hold') hk
      · exact List.mem_append_right _ (List.mem_cons_of_mem _ hr)

/-- Removing the results of one name keeps the finalized results of the other names. -/
theorem hasFinalResult_filter (ops : StringOps) (name k : String) (rs : List TestResult)
    (hk : ops.toLowerCase k ≠ ops.toLowerCase name) (h : HasFinalResult ops k rs) :
    HasFinalResult ops k
      (rs.filter (fun r => ops.toLowerCase r.studentName != ops.toLowerCase name)) := by
  obtain ⟨r, hr, hrk, hrp⟩ := h
  refine ⟨r, List.mem_filter.2 ⟨hr, ?_⟩, hrk, hrp⟩
  simpa [hrk] using hk

/-- A finalized result under a name is one under every name with the same lower-cased
form. -/
theorem hasFinalResult_congr (ops : StringOps) (k name : String) (rs : List TestResult)
    (hk : ops.toLowerCase k = ops.toLowerCase name) (h : HasFinalResult ops k rs) :
    HasFinalResult ops name rs := by
  obtain ⟨r, hr, hrk, hrp⟩ := h
  exact ⟨r, hr, hrk.trans hk, hrp⟩

/-- The users before an index keep their names under `users[i].canRetake = b`. -/
theorem earlier_setCanRetake (ops : StringOps) (us : List User) (i k : Nat) (b : Bool)
    (key : String)
    (h : ∀ j v, j < k → us[j]? = some v → ops.toLowerCase v.name ≠ key) :
    ∀ j v, j < k → (setCanRetake us i b)[j]? = some v → ops.toLowerCase v.name ≠ key := by
  intro j v hj hv
  rw [getElem?_setCanRetake] at hv
  by_cases hji : j = i
  · simp only [hji, if_true, Option.map_eq_some'] at hv
    obtain ⟨v₀, hv₀, rfl⟩ := hv
    exact h i v₀ (hji ▸ hj) hv₀
  · simp only [hji, if_false] at hv
    exact h j v hj hv

/-- Every operation preserves `LockedFirst`. -/
theorem lockedFirst_run (ops : StringOps) (env : Env) (op : Op) (s : Store)
    (inv : LockedFirst ops s) : LockedFirst ops (op.run ops env s).2 := by
  rcases run_cases ops env op s with e | ⟨n, hn, e⟩ | ⟨name, t, ht, hnf, er, eu⟩ |
    ⟨name, i, hi, e⟩
  · rw [e]; exact inv
  · -- a new user, not locked, at the end
    rw [e]
    intro k u hk hlocked
    simp only [] at hk ⊢
    rw [List.getElem?_append] at hk
    by_cases hlt : k < s.users.length
    · simp only [hlt, if_true] at hk
      obtain ⟨hearlier, hfinal⟩ := inv k u hk hlocked
      refine ⟨?_, hfinal⟩
      intro j v hj hv
      rw [List.getElem?_append_left (by omega)] at hv
      exact hearlier j v hj hv
    · simp only [hlt, if_false] at hk
      have hmem : u ∈ [n] := List.mem_iff_getElem?.2 ⟨_, hk⟩
      rw [List.mem_singleton] at hmem
      rw [hmem, hn] at hlocked
      cases hlocked
  · -- a successful submission
    have hkeep : ∀ (k : Nat) (u : User), s.users[k]? = some u → u.canRetake = false →
        (∀ (j : Nat) (v : User), j < k → s.users[j]? = some v →
          ops.toLowerCase v.name ≠ ops.toLowerCase u.name) ∧
        HasFinalResult ops u.name (op.run ops env s).2.results := by
      intro k u hk hlocked
      obtain ⟨hearlier, hfinal⟩ := inv k u hk hlocked
      refine ⟨hearlier, ?_⟩
      rw [er]
      apply hasFinalResult_upsert ops name u.name t s.results _ hfinal
      intro hkey
      exact hnf (hasFinalResult_congr ops u.name name s.results hkey hfinal)
    rcases eu with eu | ⟨hpdf, i, hi, eu⟩
    · intro k u hk hlocked
      rw [eu] at hk ⊢
      exact hkeep k u hk hlocked
    · intro k u hk hlocked
      rw [eu] at hk ⊢
      obtain ⟨x, hx, hpx, -⟩ := findIndex_some_spec _ s.users i hi
      have hxk : ops.toLowerCase x.name = ops.toLowerCase name := by simpa using hpx
      rw [getElem?_setCanRetake] at hk
      by_cases hki : k = i
      · simp only [hki, if_true, hx, Option.map_some', Option.some.injEq] at hk
        subst hk
        subst hki
        refine ⟨?_, ?_⟩
        · apply earlier_setCanRetake
          intro j v hj hv
          have := findIndex_some_min _ s.users k hi j v hj hv
          simpa [hxk] using this
        · rw [er]
          refine ⟨t, mem_upsert _ t s.results, ?_, hpdf⟩
          simp only [ht, hxk]
      · simp only [hki, if_false] at hk
        obtain ⟨hearlier, hfinal⟩ := hkeep k u hk hlocked
        exact ⟨earlier_setCanRetake ops s.users i k false _ hearlier, hfinal⟩
  · -- a successful reset: the first matching user is unlocked, its results removed
    rw [e]
    intro k u hk hlocked
    simp only [] at hk ⊢
    obtain ⟨x, hx, hpx, -⟩ := findIndex_some_spec _ s.users i hi
    have hxk : ops.toLowerCase x.name = ops.toLowerCase name := by simpa using hpx
    rw [getElem?_setCanRetake] at hk
    by_cases hki : k = i
    · simp only [hki, if_true, hx, Option.map_some', Option.some.injEq] at hk
      subst hk
      cases hlocked
    · simp only [hki, if_false] at hk
      obtain ⟨hearlier, hfinal⟩ := inv k u hk hlocked
      refine ⟨earlier_setCanRetake ops s.users i k true _ hearlier, ?_⟩
      apply hasFinalResult_filter ops name u.name s.results _ hfinal
      intro hkey
      rcases Nat.lt_or_gt_of_ne hki with hlt | hgt
      · have := findIndex_some_min _ s.users i hi k u hlt hk
        simp [hkey] at this
      · exact hearlier i x hgt hx (hxk.trans hkey.symm)

/-- Every reachable store satisfies `LockedFirst`. -/
theorem reachable_lockedFirst (ops : StringOps) (s : Store) (h : Reachable ops s) :
    LockedFirst ops s := by
  induction h with
  | empty =>
    intro i u hi
    simp [emptyStore] at hi
  | step env op s _ ih => exact lockedFirst_run ops env op s ih

/-- Every operation keeps the stored student names non-empty: the only write of a record is
behind the `if (!studentName)` guard of `/api/submit-test`. -/
theorem namedResults_run (ops : StringOps) (env : Env) (op : Op) (s : Store)
    (h : ∀ r ∈ s.results, r.studentName ≠ "") :
    ∀ r ∈ (op.run ops env s).2.results, r.studentName ≠ "" := by
  cases op with
  | authenticate n p =>
    simp only [Op.run, authenticate]
    split
    · exact h
    · split
      · split <;> exact h
      · exact h
  | submitTest n p sc t a pdf =>
    by_cases hne : n = ""
    · simp only [Op.run, submitTest, hne, if_true]
      exact h
    · cases hf : s.results.find? (fun r =>
          ops.toLowerCase r.studentName == ops.toLowerCase n && r.pdfDownloaded) with
      | some r₀ =>
        simp only [Op.run, submitTest, hne, if_false, hf]
        exact h
      | none =>
        simp only [Op.run]
        rw [submitTest_ok ops env n p sc t a pdf s hne hf]
        intro r hr
        simp only [] at hr
        split at hr
        · rcases List.mem_or_eq_of_mem_set hr with hr | rfl
          · exact h r hr
          · exact hne
        · rcases List.mem_append.1 hr with hr | hr
          · exact h r hr
          · rw [List.mem_singleton] at hr
            rw [hr]
            exact hne
  | grantSecondChance password n =>
    simp only [Op.run, grantSecondChance]
    split
    · exact h
    · split
      · exact h
      · simp only []
        split
        · intro r hr
          exact h r (List.mem_filter.1 hr).1
        · exact h
  | adminResetUser n =>
    simp only [Op.run, adminResetUser]
    split
    · exact h
    · intro r hr
      exact h r (List.mem_filter.1 hr).1

/-- No record of a reachable store has an empty student name. -/
theorem reachable_namedResults (ops : StringOps) (s : Store) (h : Reachable ops s) :
    ∀ r ∈ s.results, r.studentName ≠ "" := by
  induction h with
  | empty =>
    intro r hr
    simp [emptyStore] at hr
  | step env op s _ ih => exact namedResults_run ops env op s ih

/-! ## Claims -/

/-- C1 (evaluation at the failing input): the store holding the single user `bob` has unique
lower-cased names, and after `Authenticate("bob ", "pw2")` it holds two users named `bob`:
the lookup compares the untrimmed `"bob "`, the stored name is the trimmed `"bob"`. -/
theorem authenticate_breaks_user_uniqueness :
    UniqueUsers asciiOps storeBob.users ∧
    (Op.run asciiOps env0 (.authenticate "bob " "pw2") storeBob).2.users.map (fun u => u.name)
      = ["bob", "bob"] ∧
    ¬ UniqueUsers asciiOps (Op.run asciiOps env0 (.authenticate "bob " "pw2") storeBob).2.users := by
  decide

/-- C2 (evaluation at the failing input): on the empty store `Authenticate(" bob", "a")`
registers `bob`, and the following `Authenticate(" bob", "b")` answers 200
"Registration successful" and stores a second user `bob` instead of answering 401. -/
theorem authenticate_twice_registers_twice :
    (authenticate asciiOps env0 " bob" "a" emptyStore).1
      = ⟨200, .user "Registration successful" "bob" true⟩ ∧
    (authenticate asciiOps env0 " bob" "b" (authenticate asciiOps env0 " bob" "a" emptyStore).2).1
      = ⟨200, .user "Registration successful" "bob" true⟩ ∧
    (authenticate asciiOps env0 " bob" "b"
        (authenticate asciiOps env0 " bob" "a" emptyStore).2).2.users.map
          (fun u => (u.name, u.password))
      = [("bob", "a"), ("bob", "b")] := by
  decide

/-- C3: every operation (Authenticate, SubmitTest, GrantSecondChance, AdminResetUser), on
every input, maps a store with at most one TestResult per lower-cased studentName to a store
with at most one TestResult per lower-cased studentName. -/
theorem results_unique_invariant (ops : StringOps) (env : Env) (op : Op) (s : Store)
    (h : UniqueResults ops s.results) : UniqueResults ops (op.run ops env s).2.results := by
  cases op with
  | authenticate name password =>
    simp only [Op.run, authenticate]
    split
    · exact h
    · split
      · split <;> exact h
      · exact h
  | submitTest n p sc t a pdf =>
    simp only [Op.run, submitTest]
    split
    · exact h
    · split
      · exact h
      · exact uniqueResults_upsert ops n _ s.results rfl h
  | grantSecondChance password n =>
    simp only [Op.run, grantSecondChance]
    split
    · exact h
    · split
      · exact h
      · simp only []
        split
        · exact uniqueResults_filter ops _ s.results h
        · exact h
  | adminResetUser n =>
    simp only [Op.run, adminResetUser]
    split
    · exact h
    · exact uniqueResults_filter ops _ s.results h

theorem results_unique_invariant_witness :
    UniqueResults asciiOps (Store.mk [userBob] [resultBob]).results ∧
    UniqueResults asciiOps
      (Op.run asciiOps env0 (.submitTest "BOB" "B" "4" "5" "[]" true)
        (Store.mk [userBob] [resultBob])).2.results :=
  ⟨by decide, results_unique_invariant asciiOps env0 _ _ (by decide)⟩


/-- C4: for every store and every name for which a user exists (names compared after
lower-casing), if SubmitTest(name, ..., pdfDownloaded = true) succeeds (status 200), then
CanTakeTest(name) on the resulting store answers 200 with canRetake = false and
hasCompleted = true. -/
theorem canTakeTest_after_final_submit (ops : StringOps) (env : Env) (name : String)
    (pattern score total answers : Payload) (s : Store)
    (hu : HasUser ops name s.users)
    (hs : (submitTest ops env name pattern score total answers true s).1.status = 200) :
    (canTakeTest ops name (submitTest ops env name pattern score total answers true s).2).1
      = ⟨200, .eligibility false true⟩ := by
  obtain ⟨i, hi⟩ := findIndex_isSome_of_hasUser ops name s.users hu
  obtain ⟨u, -, hfind⟩ := find_setCanRetake ops (ops.toLowerCase name) s.users i false hi
  unfold submitTest at hs ⊢
  split at hs
  · simp at hs
  · split at hs
    · simp at hs
    · rename_i hne _ hnone
      simp only [hne, if_false, hnone, hi, if_true]
      unfold canTakeTest
      simp only [hfind, any_upsert_final ops name
        (newTestResult env name pattern score total answers true) s.results rfl rfl]
      simp

theorem canTakeTest_after_final_submit_witness :
    HasUser asciiOps "Bob" (Store.mk [userBob] [resultBob]).users ∧
    (submitTest asciiOps env0 "Bob" "B" "4" "5" "[]" true
      (Store.mk [userBob] [resultBob])).1.status = 200 ∧
    (canTakeTest asciiOps "Bob" (submitTest asciiOps env0 "Bob" "B" "4" "5" "[]" true
      (Store.mk [userBob] [resultBob])).2).1 = ⟨200, .eligibility false true⟩ :=
  ⟨by decide, by decide,
    canTakeTest_after_final_submit asciiOps env0 "Bob" "B" "4" "5" "[]" _ (by decide)
      (by decide)⟩


/-- C5: for every store in which a finalized TestResult exists for a name (names compared
after lower-casing), SubmitTest for that name answers 400 "Test already completed and PDF
downloaded" (ConflictError) and leaves Users and TestResults unchanged, whatever the submitted
pdfDownloaded and payload are.  The store is any store when the name is not empty, and any
store reachable from the empty store otherwise, for a runtime whose `toLowerCase` maps only
the empty string to the empty string: no handler writes a record with an empty name, so on a
reachable store no finalized record matches the empty name. -/
theorem submitTest_after_final_rejected (ops : StringOps) (env : Env) (name : String)
    (pattern score total answers : Payload) (pdfDownloaded : Bool) (s : Store)
    (hs : name ≠ "" ∨ (LowerReflectsEmpty ops ∧ Reachable ops s))
    (hf : HasFinalResult ops name s.results) :
    submitTest ops env name pattern score total answers pdfDownloaded s
      = (⟨400, .error "Test already completed and PDF downloaded"⟩, s) := by
  have hne : name ≠ "" := by
    rcases hs with hne | ⟨hops, hreach⟩
    · exact hne
    · intro he
      obtain ⟨r, hr, hk, -⟩ := hf
      apply reachable_namedResults ops s hreach r hr
      rw [← hops r.studentName, hk, he]
      exact (hops "").2 rfl
  obtain ⟨r, hr⟩ := find_final_isSome ops name s.results hf
  unfold submitTest
  simp only [hne, if_false, hr]

theorem submitTest_after_final_rejected_witness :
    Reachable asciiOps
      (Op.run asciiOps env0 (.submitTest "Bob" "B" "4" "5" "[]" true)
        (Op.run asciiOps env0 (.authenticate "bob" "pw1") emptyStore).2).2 ∧
    HasFinalResult asciiOps "BOB"
      (Op.run asciiOps env0 (.submitTest "Bob" "B" "4" "5" "[]" true)
        (Op.run asciiOps env0 (.authenticate "bob" "pw1") emptyStore).2).2.results ∧
    submitTest asciiOps env0 "BOB" "C" "5" "5" "[]" false
        (Op.run asciiOps env0 (.submitTest "Bob" "B" "4" "5" "[]" true)
          (Op.run asciiOps env0 (.authenticate "bob" "pw1") emptyStore).2).2
      = (⟨400, .error "Test already completed and PDF downloaded"⟩,
          (Op.run asciiOps env0 (.submitTest "Bob" "B" "4" "5" "[]" true)
            (Op.run asciiOps env0 (.authenticate "bob" "pw1") emptyStore).2).2) :=
  ⟨Reachable.step _ _ _ (Reachable.step _ _ _ Reachable.empty), by decide,
    submitTest_after_final_rejected asciiOps env0 "BOB" "C" "5" "5" "[]" false _
      (Or.inr ⟨asciiOps_lowerReflectsEmpty,
        Reachable.step _ _ _ (Reachable.step _ _ _ Reachable.empty)⟩)
      (by decide)⟩

/-- C6 (counterexample): `Authenticate(" ", "pw")` on the empty store registers a user whose
name is empty; for the name `""` a user then exists and GrantSecondChance succeeds, but the
following SubmitTest for `""` answers 400 "Student name required". -/
theorem grant_then_submit_empty_name_fails :
    (authenticate asciiOps env0 " " "pw" emptyStore).2 = storeNameless ∧
    HasUser asciiOps "" storeNameless.users ∧
    (grantSecondChance asciiOps "choice2ellen" "" storeNameless).1.status = 200 ∧
    (submitTest asciiOps env0 "" "A" "1" "2" "[]" false
      (grantSecondChance asciiOps "choice2ellen" "" storeNameless).2).1
      = ⟨400, .error "Student name required"⟩ := by
  decide

/-- C6 (amended): for every store and every non-empty studentName for which a user exists,
GrantSecondChance("choice2ellen", studentName) succeeds; in the resulting store the user that
the name lookup finds has canRetake = true, no TestResult remains under that name, and a
following SubmitTest for that studentName succeeds, whatever its payload is. -/
theorem grantSecondChance_resets (ops : StringOps) (env : Env) (name : String)
    (pattern score total answers : Payload) (pdfDownloaded : Bool) (s : Store)
    (hne : name ≠ "") (hu : HasUser ops name s.users) :
    (grantSecondChance ops "choice2ellen" name s).1.status = 200 ∧
    (∃ u, (grantSecondChance ops "choice2ellen" name s).2.users.find?
        (fun u => ops.toLowerCase u.name == ops.toLowerCase name) = some u ∧
      u.canRetake = true) ∧
    (∀ r ∈ (grantSecondChance ops "choice2ellen" name s).2.results,
      ops.toLowerCase r.studentName ≠ ops.toLowerCase name) ∧
    (submitTest ops env name pattern score total answers pdfDownloaded
      (grantSecondChance ops "choice2ellen" name s).2).1.status = 200 := by
  obtain ⟨i, hi⟩ := findIndex_isSome_of_hasUser ops name s.users hu
  obtain ⟨u, -, hfind⟩ := find_setCanRetake ops (ops.toLowerCase name) s.users i true hi
  rw [grantSecondChance_ok ops name s i hi]
  refine ⟨rfl, ⟨_, hfind, rfl⟩, filter_other_names ops name s.results, ?_⟩
  unfold submitTest
  simp only [hne, if_false,
    find_final_eq_none ops name _ (filter_other_names ops name s.results)]

theorem grantSecondChance_resets_witness :
    HasUser asciiOps "Bob" (Store.mk [userBob] [resultBob]).users ∧
    (submitTest asciiOps env0 "Bob" "B" "4" "5" "[]" true
      (grantSecondChance asciiOps "choice2ellen" "Bob"
        (Store.mk [userBob] [resultBob])).2).1.status = 200 :=
  ⟨by decide,
    (grantSecondChance_resets asciiOps env0 "Bob" "B" "4" "5" "[]" true
      (Store.mk [userBob] [resultBob]) (by decide) (by decide)).2.2.2⟩

/-- C7: for every store, every studentName and every password other than "choice2ellen",
GrantSecondChance(password, studentName) answers 401 (AuthError) and leaves Users and
TestResults unchanged. -/
theorem grantSecondChance_wrong_password (ops : StringOps) (password name : String)
    (s : Store) (h : password ≠ "choice2ellen") :
    grantSecondChance ops password name s
      = (⟨401, .error "Invalid second chance password"⟩, s) := by
  have hpw : password ≠ secondChancePassword := h
  unfold grantSecondChance
  simp only [hpw, ne_eq, not_false_eq_true, if_true]

theorem grantSecondChance_wrong_password_witness :
    "Choice2Ellen" ≠ "choice2ellen" ∧
    grantSecondChance asciiOps "Choice2Ellen" "bob" (Store.mk [userBob] [resultBob])
      = (⟨401, .error "Invalid second chance password"⟩, Store.mk [userBob] [resultBob]) :=
  ⟨by decide, grantSecondChance_wrong_password asciiOps "Choice2Ellen" "bob" _ (by decide)⟩


/-- C8: AdminListAll never returns raw passwords: two stores that are identical except for
the password fields of their users give the same AdminListAll response, and every user entry
of the response carries the placeholder `***` as its password. -/
theorem adminListAll_hides_passwords (s₁ s₂ : Store)
    (hu : s₁.users.map User.withoutPassword = s₂.users.map User.withoutPassword)
    (hr : s₁.results = s₂.results) :
    (adminListAll s₁).1 = (adminListAll s₂).1 ∧
    ∀ us rs n m, (adminListAll s₁).1.body = .adminData us rs n m →
      ∀ u ∈ us, u.password = "***" := by
  constructor
  · have hlen : s₁.users.length = s₂.users.length := by
      simpa using congrArg List.length hu
    simp only [adminListAll, map_redact_eq _ _ hu, hr, hlen]
  · intro us rs n m h u hmem
    simp only [adminListAll, Body.adminData.injEq] at h
    obtain ⟨rfl, -, -, -⟩ := h
    obtain ⟨v, -, rfl⟩ := List.mem_map.1 hmem
    rfl

theorem adminListAll_hides_passwords_witness :
    (adminListAll (Store.mk [userBob] [resultBob])).1
      = (adminListAll (Store.mk [{ userBob with password := "secret" }] [resultBob])).1 ∧
    ∀ us rs n m, (adminListAll (Store.mk [userBob] [resultBob])).1.body
        = .adminData us rs n m → ∀ u ∈ us, u.password = "***" :=
  adminListAll_hides_passwords (Store.mk [userBob] [resultBob])
    (Store.mk [{ userBob with password := "secret" }] [resultBob]) (by decide) (by decide)

/-- C9: CanTakeTest(name) never changes the store; it answers 404 (NotFoundError) if and only
if no user has a matching name (names compared after lower-casing); otherwise it answers 200
with hasCompleted = true iff some TestResult of that name has pdfDownloaded = true, and
canRetake = (canRetake of the user the name lookup finds) AND NOT hasCompleted. -/
theorem canTakeTest_spec (ops : StringOps) (name : String) (s : Store) :
    (canTakeTest ops name s).2 = s ∧
    ((canTakeTest ops name s).1.status = 404 ↔ ¬ HasUser ops name s.users) ∧
    (¬ HasUser ops name s.users →
      (canTakeTest ops name s).1 = ⟨404, .error "User not found"⟩) ∧
    (HasUser ops name s.users → ∃ u hasCompleted,
      s.users.find? (fun u => ops.toLowerCase u.name == ops.toLowerCase name) = some u ∧
      (hasCompleted = true ↔ HasFinalResult ops name s.results) ∧
      (canTakeTest ops name s).1
        = ⟨200, .eligibility (u.canRetake && !hasCompleted) hasCompleted⟩) := by
  by_cases hu : HasUser ops name s.users
  · obtain ⟨u, hfind⟩ := find_isSome_of_hasUser ops name s.users hu
    have hresp : canTakeTest ops name s =
        (⟨200, .eligibility (u.canRetake && !(s.results.any (fun r =>
            ops.toLowerCase r.studentName == ops.toLowerCase name && r.pdfDownloaded)))
          (s.results.any (fun r =>
            ops.toLowerCase r.studentName == ops.toLowerCase name && r.pdfDownloaded))⟩, s) := by
      unfold canTakeTest
      simp only [hfind]
    rw [hresp]
    refine ⟨rfl, ?_, fun h => absurd hu h, fun _ => ⟨u, _, hfind, ?_, rfl⟩⟩
    · simp [hu]
    · rw [List.any_eq_true]
      unfold HasFinalResult
      simp
  · have hnone : s.users.find? (fun u => ops.toLowerCase u.name == ops.toLowerCase name)
        = none :=
      find_eq_none_of_findIndex _ _ ((findIndex_eq_none_iff_not_hasUser ops name s.users).2 hu)
    have hresp : canTakeTest ops name s = (⟨404, .error "User not found"⟩, s) := by
      unfold canTakeTest
      simp only [hnone]
    rw [hresp]
    exact ⟨rfl, by simp [hu], fun _ => rfl, fun h => absurd h hu⟩

/-- C10: AdminResetUser(name) and GrantSecondChance("choice2ellen", name) answer with the
same status, which is 404 (NotFoundError) exactly when no user matches the name and 200
otherwise, and they leave the same Users and the same TestResults. -/
theorem adminResetUser_eq_grantSecondChance (ops : StringOps) (name : String) (s : Store) :
    (adminResetUser ops name s).1.status
      = (grantSecondChance ops "choice2ellen" name s).1.status ∧
    ((adminResetUser ops name s).1.status = 404 ↔ ¬ HasUser ops name s.users) ∧
    ((adminResetUser ops name s).1.status = 200 ↔ HasUser ops name s.users) ∧
    (adminResetUser ops name s).2.users
      = (grantSecondChance ops "choice2ellen" name s).2.users ∧
    (adminResetUser ops name s).2.results
      = (grantSecondChance ops "choice2ellen" name s).2.results := by
  cases hi : findIndex (fun u => ops.toLowerCase u.name == ops.toLowerCase name) s.users with
  | none =>
    have hu : ¬ HasUser ops name s.users :=
      (findIndex_eq_none_iff_not_hasUser ops name s.users).1 hi
    have hpw : ¬ ("choice2ellen" ≠ secondChancePassword) := by decide
    have hg : grantSecondChance ops "choice2ellen" name s
        = (⟨404, .error "User not found"⟩, s) := by
      unfold grantSecondChance
      simp only [hpw, if_false, find_eq_none_of_findIndex _ _ hi]
    have ha : adminResetUser ops name s = (⟨404, .error "User not found"⟩, s) := by
      unfold adminResetUser
      simp only [hi]
    rw [hg, ha]
    simp [hu]
  | some i =>
    have hu : HasUser ops name s.users := by
      by_contra hn
      rw [(findIndex_eq_none_iff_not_hasUser ops name s.users).2 hn] at hi
      cases hi
    have ha : adminResetUser ops name s = (⟨200, .ack "User reset successfully"⟩,
        { users := setCanRetake s.users i true,
          results := s.results.filter
            (fun r => ops.toLowerCase r.studentName != ops.toLowerCase name) }) := by
      unfold adminResetUser
      simp only [hi]
    rw [grantSecondChance_ok ops name s i hi, ha]
    simp [hu]


/-- C11: name matching is case-insensitive for all lookups.  For a runtime whose
`toLowerCase` maps only the empty string to the empty string, for every store and every two
names with the same lower-cased form: CanTakeTest, GetResults, GrantSecondChance and
AdminResetUser give the same answer and the same store; Authenticate gives the same status,
and the very same answer and store when a user matches; SubmitTest gives the same answer,
the same Users, and the same TestResults up to the letter case of the stored name. -/
theorem name_lookup_case_insensitive (ops : StringOps) (env : Env) (n₁ n₂ password : String)
    (pattern score total answers : Payload) (pdfDownloaded : Bool) (s : Store)
    (hops : LowerReflectsEmpty ops) (h : ops.toLowerCase n₁ = ops.toLowerCase n₂) :
    canTakeTest ops n₁ s = canTakeTest ops n₂ s ∧
    getResults ops n₁ s = getResults ops n₂ s ∧
    grantSecondChance ops password n₁ s = grantSecondChance ops password n₂ s ∧
    adminResetUser ops n₁ s = adminResetUser ops n₂ s ∧
    (authenticate ops env n₁ password s).1.status
      = (authenticate ops env n₂ password s).1.status ∧
    (HasUser ops n₁ s.users →
      authenticate ops env n₁ password s = authenticate ops env n₂ password s) ∧
    (submitTest ops env n₁ pattern score total answers pdfDownloaded s).1
      = (submitTest ops env n₂ pattern score total answers pdfDownloaded s).1 ∧
    (submitTest ops env n₁ pattern score total answers pdfDownloaded s).2.users
      = (submitTest ops env n₂ pattern score total answers pdfDownloaded s).2.users ∧
    (submitTest ops env n₁ pattern score total answers pdfDownloaded s).2.results.map
        (TestResult.lowerName ops)
      = (submitTest ops env n₂ pattern score total answers pdfDownloaded s).2.results.map
        (TestResult.lowerName ops) := by
  have he : n₁ = "" ↔ n₂ = "" := by
    rw [← hops n₁, ← hops n₂, h]
  refine ⟨?_, ?_, ?_, ?_, ?_, ?_, ?_⟩
  · unfold canTakeTest; rw [h]
  · unfold getResults; rw [h]
  · unfold grantSecondChance; rw [h]
  · unfold adminResetUser; rw [h]
  · unfold authenticate
    rw [h]
    by_cases h1 : n₁ = ""
    · have h2 := he.1 h1
      simp [h1, h2]
    · have h2 : ¬ n₂ = "" := fun h2 => h1 (he.2 h2)
      by_cases hp : password = ""
      · simp [hp]
      · simp only [h1, h2, hp, or_self, if_false]
        cases s.users.find? (fun u => ops.toLowerCase u.name == ops.toLowerCase n₂) with
        | none => rfl
        | some u => simp only []
  · intro hu
    obtain ⟨u, hf⟩ := find_isSome_of_hasUser ops n₁ s.users hu
    unfold authenticate
    rw [h] at hf ⊢
    by_cases h1 : n₁ = ""
    · have h2 := he.1 h1
      simp [h1, h2]
    · have h2 : ¬ n₂ = "" := fun h2 => h1 (he.2 h2)
      simp only [h1, h2, false_or, hf]
  · by_cases h1 : n₁ = ""
    · have h2 := he.1 h1
      subst h1; subst h2
      exact ⟨rfl, rfl, rfl⟩
    · have h2 : ¬ n₂ = "" := fun h2 => h1 (he.2 h2)
      cases hf : s.results.find? (fun r =>
          ops.toLowerCase r.studentName == ops.toLowerCase n₂ && r.pdfDownloaded) with
      | some r =>
        have e₁ : submitTest ops env n₁ pattern score total answers pdfDownloaded s
            = (⟨400, .error "Test already completed and PDF downloaded"⟩, s) := by
          unfold submitTest; simp only [h1, if_false, h, hf]
        have e₂ : submitTest ops env n₂ pattern score total answers pdfDownloaded s
            = (⟨400, .error "Test already completed and PDF downloaded"⟩, s) := by
          unfold submitTest; simp only [h2, if_false, hf]
        rw [e₁, e₂]
        exact ⟨rfl, rfl, rfl⟩
      | none =>
        rw [submitTest_ok ops env n₁ _ _ _ _ _ s h1 (by rw [h]; exact hf),
          submitTest_ok ops env n₂ _ _ _ _ _ s h2 hf, h]
        refine ⟨rfl, rfl, ?_⟩
        apply map_lowerName_upsert
        simp [TestResult.lowerName, newTestResult, h]

theorem name_lookup_case_insensitive_witness :
    asciiOps.toLowerCase "Bob" = asciiOps.toLowerCase "BOB" ∧
    canTakeTest asciiOps "Bob" (Store.mk [userBob] [resultBob])
      = canTakeTest asciiOps "BOB" (Store.mk [userBob] [resultBob]) :=
  ⟨by decide,
    (name_lookup_case_insensitive asciiOps env0 "Bob" "BOB" "pw1" "B" "4" "5" "[]" true
      (Store.mk [userBob] [resultBob]) asciiOps_lowerReflectsEmpty (by decide)).1⟩


/-- C12: Authenticate never changes TestResults.  It answers 400 (ValidationError) iff the
name or the password is missing or empty.  Otherwise, when a user with a matching name exists
(the one the lookup finds), it answers 401 (AuthError) iff the stored password differs from
the given one, leaving the store unchanged, and else answers 200 with that user's stored name
and canRetake, leaving the store unchanged; when no user matches it answers 200 with
canRetake = true and appends exactly one user, with canRetake = true and the given password
stored verbatim. -/
theorem authenticate_spec (ops : StringOps) (env : Env) (name password : Option String)
    (n p : String) (s : Store) :
    (authenticateBody ops env name password s).2.results = s.results ∧
    ((authenticateBody ops env name password s).1.status = 400 ↔
      (name = none ∨ name = some "" ∨ password = none ∨ password = some "")) ∧
    (n ≠ "" → p ≠ "" →
      (HasUser ops n s.users → ∃ u,
        s.users.find? (fun u => ops.toLowerCase u.name == ops.toLowerCase n) = some u ∧
        ((authenticateBody ops env (some n) (some p) s).1.status = 401 ↔ u.password ≠ p) ∧
        (u.password ≠ p → authenticateBody ops env (some n) (some p) s
          = (⟨401, .error "Invalid password"⟩, s)) ∧
        (u.password = p → authenticateBody ops env (some n) (some p) s
          = (⟨200, .user "Login successful" u.name u.canRetake⟩, s))) ∧
      (¬ HasUser ops n s.users → ∃ u, u.canRetake = true ∧ u.password = p ∧
        authenticateBody ops env (some n) (some p) s
          = (⟨200, .user "Registration successful" u.name true⟩,
              ⟨s.users ++ [u], s.results⟩))) := by
  refine ⟨?_, ?_, ?_⟩
  · unfold authenticateBody
    split
    · unfold authenticate
      split
      · rfl
      · split
        · split <;> rfl
        · rfl
    · rfl
  · cases name with
    | none => simp [authenticateBody]
    | some a =>
      cases password with
      | none => simp [authenticateBody]
      | some b =>
        simp only [authenticateBody, authenticate]
        by_cases ha : a = ""
        · simp [ha]
        · by_cases hb : b = ""
          · simp [hb]
          · simp only [ha, hb, or_self, if_false]
            cases s.users.find? (fun u => ops.toLowerCase u.name == ops.toLowerCase a) with
            | none => simp [ha, hb]
            | some u =>
              simp only []
              split <;> simp [ha, hb]
  · intro hn hp
    constructor
    · intro hu
      obtain ⟨u, hf⟩ := find_isSome_of_hasUser ops n s.users hu
      refine ⟨u, hf, ?_⟩
      simp only [authenticateBody, authenticate, hn, hp, or_self, if_false, hf]
      by_cases hpw : u.password = p
      · simp [hpw]
      · simp [hpw]
    · intro hu
      have hf := (find_eq_none_iff_not_hasUser ops n s.users).2 hu
      refine ⟨⟨env.now, ops.trim n, p, true, env.nowIso⟩, rfl, rfl, ?_⟩
      simp only [authenticateBody, authenticate, hn, hp, or_self, if_false, hf]


/-- C13: SubmitTest is an upsert by name.  For every store with at most one TestResult per
lower-cased studentName and every successful SubmitTest: the new record carries the submitted
name, pattern, score, total and answers; if a record was stored under the name, it is the
only one and the new TestResults is the old list with that record replaced in place by the
new one (same length, same position); if none was, the new record is appended at the end
(length + 1); the records stored under other names are unchanged and keep their order. -/
theorem submitTest_upsert (ops : StringOps) (env : Env) (name : String)
    (pattern score total answers : Payload) (pdfDownloaded : Bool) (s : Store)
    (hu : UniqueResults ops s.results)
    (hs : (submitTest ops env name pattern score total answers pdfDownloaded s).1.status = 200) :
    ((newTestResult env name pattern score total answers pdfDownloaded).studentName = name ∧
      (newTestResult env name pattern score total answers pdfDownloaded).pattern = pattern ∧
      (newTestResult env name pattern score total answers pdfDownloaded).score = score ∧
      (newTestResult env name pattern score total answers pdfDownloaded).total = total ∧
      (newTestResult env name pattern score total answers pdfDownloaded).answers = answers) ∧
    (HasResult ops name s.results → ∃ pre old post,
      s.results = pre ++ old :: post ∧
      ops.toLowerCase old.studentName = ops.toLowerCase name ∧
      (∀ r ∈ pre ++ post, ops.toLowerCase r.studentName ≠ ops.toLowerCase name) ∧
      (submitTest ops env name pattern score total answers pdfDownloaded s).2.results
        = pre ++ newTestResult env name pattern score total answers pdfDownloaded :: post ∧
      (submitTest ops env name pattern score total answers pdfDownloaded s).2.results.length
        = s.results.length) ∧
    (¬ HasResult ops name s.results →
      (submitTest ops env name pattern score total answers pdfDownloaded s).2.results
        = s.results ++ [newTestResult env name pattern score total answers pdfDownloaded] ∧
      (submitTest ops env name pattern score total answers pdfDownloaded s).2.results.length
        = s.results.length + 1) ∧
    (submitTest ops env name pattern score total answers pdfDownloaded s).2.results.filter
        (fun r => ops.toLowerCase r.studentName != ops.toLowerCase name)
      = s.results.filter (fun r => ops.toLowerCase r.studentName != ops.toLowerCase name) := by
  obtain ⟨hne, hnone⟩ := submitTest_success_inv ops env name _ _ _ _ _ s hs
  rw [submitTest_ok ops env name _ _ _ _ _ s hne hnone]
  refine ⟨⟨rfl, rfl, rfl, rfl, rfl⟩, ?_⟩
  cases hi : findIndex (fun r => ops.toLowerCase r.studentName == ops.toLowerCase name)
      s.results with
  | none =>
    have hno := (findIndex_eq_none_iff_not_hasResult ops name s.results).1 hi
    refine ⟨fun h => absurd h hno, fun _ => ⟨rfl, by simp⟩, ?_⟩
    simp [newTestResult]
  | some i =>
    obtain ⟨pre, old, post, hl, -, hpre, hold, hset⟩ := findIndex_some_split _ _ i hi
    have hold' : ops.toLowerCase old.studentName = ops.toLowerCase name := by simpa using hold
    have hhas : HasResult ops name s.results := ⟨old, by simp [hl], hold'⟩
    have hother : ∀ r ∈ pre ++ post,
        ops.toLowerCase r.studentName ≠ ops.toLowerCase name := by
      intro r hr
      rcases List.mem_append.1 hr with hr | hr
      · simpa using hpre r hr
      · intro hk
        unfold UniqueResults at hu
        rw [hl, List.map_append, List.map_cons, List.nodup_append] at hu
        have := (List.nodup_cons.1 hu.2.1).1
        apply this
        rw [hold', ← hk]
        exact List.mem_map_of_mem _ hr
    refine ⟨fun _ => ⟨pre, old, post, hl, hold', hother, hset _, ?_⟩, fun h => absurd hhas h, ?_⟩
    · simp only [List.length_set]
    · simp only [hset]
      rw [hl]
      simp [List.filter_append, List.filter_cons, hold', newTestResult]

theorem submitTest_upsert_witness :
    UniqueResults asciiOps (Store.mk [userBob] [resultBob]).results ∧
    (submitTest asciiOps env0 "Bob" "B" "4" "5" "[]" false
      (Store.mk [userBob] [resultBob])).2.results.filter
        (fun r => asciiOps.toLowerCase r.studentName != asciiOps.toLowerCase "Bob")
      = (Store.mk [userBob] [resultBob]).results.filter
        (fun r => asciiOps.toLowerCase r.studentName != asciiOps.toLowerCase "Bob") :=
  ⟨by decide,
    (submitTest_upsert asciiOps env0 "Bob" "B" "4" "5" "[]" false
      (Store.mk [userBob] [resultBob]) (by decide) (by decide)).2.2.2⟩


/-- C14: for every store and every successful SubmitTest the new record is saved in
TestResults, and success does not depend on Users.  Users is unchanged when pdfDownloaded is
false or no user matches the name; when pdfDownloaded is true and a user matches, the only
change is that the first matching user's canRetake becomes false: its id, name, password and
createdAt and all other users are unchanged. -/
theorem submitTest_users_frame (ops : StringOps) (env : Env) (name : String)
    (pattern score total answers : Payload) (pdfDownloaded : Bool) (s : Store)
    (hs : (submitTest ops env name pattern score total answers pdfDownloaded s).1.status = 200) :
    newTestResult env name pattern score total answers pdfDownloaded
      ∈ (submitTest ops env name pattern score total answers pdfDownloaded s).2.results ∧
    (∀ us : List User, (submitTest ops env name pattern score total answers pdfDownloaded
      ⟨us, s.results⟩).1.status = 200) ∧
    ((pdfDownloaded = false ∨ ¬ HasUser ops name s.users) →
      (submitTest ops env name pattern score total answers pdfDownloaded s).2.users
        = s.users) ∧
    (pdfDownloaded = true → HasUser ops name s.users → ∃ pre u post,
      s.users = pre ++ u :: post ∧
      (∀ a ∈ pre, ops.toLowerCase a.name ≠ ops.toLowerCase name) ∧
      ops.toLowerCase u.name = ops.toLowerCase name ∧
      (submitTest ops env name pattern score total answers pdfDownloaded s).2.users
        = pre ++ { u with canRetake := false } :: post) := by
  obtain ⟨hne, hnone⟩ := submitTest_success_inv ops env name _ _ _ _ _ s hs
  refine ⟨?_, ?_, ?_, ?_⟩
  · rw [submitTest_ok ops env name _ _ _ _ _ s hne hnone]
    exact mem_upsert _ _ s.results
  · intro us
    rw [submitTest_ok ops env name _ _ _ _ _ ⟨us, s.results⟩ hne hnone]
  · rw [submitTest_ok ops env name _ _ _ _ _ s hne hnone]
    rintro (hpdf | hu)
    · simp [hpdf]
    · simp only [(findIndex_eq_none_iff_not_hasUser ops name s.users).2 hu]
      split <;> rfl
  · intro hpdf hu
    rw [submitTest_ok ops env name _ _ _ _ _ s hne hnone]
    obtain ⟨i, hi⟩ := findIndex_isSome_of_hasUser ops name s.users hu
    obtain ⟨pre, u, post, hl, -, hpre, hk, hset⟩ :=
      setCanRetake_of_findIndex ops name s.users i false hi
    exact ⟨pre, u, post, hl, hpre, hk, by simp only [hpdf, if_true, hi, hset]⟩

theorem submitTest_users_frame_witness :
    (submitTest asciiOps env0 "Bob" "B" "4" "5" "[]" true
      (Store.mk [userBob] [resultBob])).1.status = 200 ∧
    newTestResult env0 "Bob" "B" "4" "5" "[]" true
      ∈ (submitTest asciiOps env0 "Bob" "B" "4" "5" "[]" true
        (Store.mk [userBob] [resultBob])).2.results :=
  ⟨by decide,
    (submitTest_users_frame asciiOps env0 "Bob" "B" "4" "5" "[]" true
      (Store.mk [userBob] [resultBob]) (by decide)).1⟩


/-- C15: users are never deleted or rewritten except for canRetake.  For every store and
every operation (Authenticate, SubmitTest, GrantSecondChance, AdminResetUser) on every input,
the sequence of (id, name, password, createdAt) of the users before the operation starts the
sequence after it; the number of users stays the same or grows by one, and it grows by one
exactly for an Authenticate with non-empty name and password whose name matches no user. -/
theorem users_only_grow (ops : StringOps) (env : Env) (op : Op) (s : Store) :
    s.users.map User.identity <+: (op.run ops env s).2.users.map User.identity ∧
    ((op.run ops env s).2.users.length = s.users.length ∨
      (op.run ops env s).2.users.length = s.users.length + 1) ∧
    ((op.run ops env s).2.users.length = s.users.length + 1 ↔
      ∃ n p, op = .authenticate n p ∧ n ≠ "" ∧ p ≠ "" ∧ ¬ HasUser ops n s.users) := by
  rcases users_after_run ops env op s with h | ⟨i, b, h⟩ | ⟨n, p, hop, hn, hp, hu, h⟩
  · rw [h]
    refine ⟨⟨[], by simp⟩, Or.inl rfl, ?_⟩
    constructor
    · intro hl; omega
    · rintro ⟨n, p, hop, hn, hp, hu⟩
      subst hop
      have hf := (find_eq_none_iff_not_hasUser ops n s.users).2 hu
      simp [Op.run, authenticate, hn, hp, hf] at h
  · rw [h, map_identity_setCanRetake, length_setCanRetake]
    refine ⟨⟨[], by simp⟩, Or.inl rfl, ?_⟩
    constructor
    · intro hl; omega
    · rintro ⟨n, p, hop, hn, hp, hu⟩
      subst hop
      have hf := (find_eq_none_iff_not_hasUser ops n s.users).2 hu
      have hlen := congrArg List.length h
      simp [Op.run, authenticate, hn, hp, hf, length_setCanRetake] at hlen
  · rw [h]
    refine ⟨⟨[User.identity ⟨env.now, ops.trim n, p, true, env.nowIso⟩], by simp⟩,
      Or.inr (by simp), ?_⟩
    constructor
    · intro _
      exact ⟨n, p, hop, hn, hp, hu⟩
    · intro _
      simp


/-- C16: from the empty store, with any request environments and any payload, the sequence
Authenticate("bob","pw1"); SubmitTest("bob", ..., pdfDownloaded = true); CanTakeTest("bob");
GrantSecondChance("choice2ellen","bob"); CanTakeTest("bob") succeeds at every step:
Authenticate creates the user and returns canRetake = true, the first CanTakeTest returns
canRetake = false and hasCompleted = true, GrantSecondChance leaves no TestResult for bob, and
the second CanTakeTest returns canRetake = true and hasCompleted = false. -/
theorem bob_scenario (env₁ env₂ : Env) (pattern score total answers : Payload) :
    (authenticate asciiOps env₁ "bob" "pw1" emptyStore).1
      = ⟨200, .user "Registration successful" "bob" true⟩ ∧
    (authenticate asciiOps env₁ "bob" "pw1" emptyStore).2.users
      = [⟨env₁.now, "bob", "pw1", true, env₁.nowIso⟩] ∧
    (submitTest asciiOps env₂ "bob" pattern score total answers true
      (authenticate asciiOps env₁ "bob" "pw1" emptyStore).2).1
      = ⟨200, .ack "Test result saved"⟩ ∧
    (canTakeTest asciiOps "bob"
      (submitTest asciiOps env₂ "bob" pattern score total answers true
        (authenticate asciiOps env₁ "bob" "pw1" emptyStore).2).2).1
      = ⟨200, .eligibility false true⟩ ∧
    (grantSecondChance asciiOps "choice2ellen" "bob"
      (submitTest asciiOps env₂ "bob" pattern score total answers true
        (authenticate asciiOps env₁ "bob" "pw1" emptyStore).2).2).1
      = ⟨200, .ack "Second chance granted, you can retake the test"⟩ ∧
    ¬ HasResult asciiOps "bob"
      (grantSecondChance asciiOps "choice2ellen" "bob"
        (submitTest asciiOps env₂ "bob" pattern score total answers true
          (authenticate asciiOps env₁ "bob" "pw1" emptyStore).2).2).2.results ∧
    (canTakeTest asciiOps "bob"
      (grantSecondChance asciiOps "choice2ellen" "bob"
        (submitTest asciiOps env₂ "bob" pattern score total answers true
          (authenticate asciiOps env₁ "bob" "pw1" emptyStore).2).2).2).1
      = ⟨200, .eligibility true false⟩ := by
  have hbob : asciiOps.toLowerCase "bob" = "bob" := by decide
  have htrim : asciiOps.trim "bob" = "bob" := by decide
  have h1 : authenticate asciiOps env₁ "bob" "pw1" emptyStore
      = (⟨200, .user "Registration successful" "bob" true⟩,
          ⟨[⟨env₁.now, "bob", "pw1", true, env₁.nowIso⟩], []⟩) := by
    simp [authenticate, emptyStore, htrim]
  have h2 : submitTest asciiOps env₂ "bob" pattern score total answers true
      ⟨[⟨env₁.now, "bob", "pw1", true, env₁.nowIso⟩], []⟩
      = (⟨200, .ack "Test result saved"⟩,
          ⟨[⟨env₁.now, "bob", "pw1", false, env₁.nowIso⟩],
            [newTestResult env₂ "bob" pattern score total answers true]⟩) := by
    simp [submitTest, findIndex, setCanRetake, hbob]
  have h3 : grantSecondChance asciiOps "choice2ellen" "bob"
      ⟨[⟨env₁.now, "bob", "pw1", false, env₁.nowIso⟩],
        [newTestResult env₂ "bob" pattern score total answers true]⟩
      = (⟨200, .ack "Second chance granted, you can retake the test"⟩,
          ⟨[⟨env₁.now, "bob", "pw1", true, env₁.nowIso⟩], []⟩) := by
    simp [grantSecondChance, secondChancePassword, findIndex, setCanRetake, hbob,
      newTestResult]
  rw [h1, h2, h3]
  refine ⟨rfl, rfl, rfl, ?_, rfl, ?_, ?_⟩
  · simp [canTakeTest, hbob, newTestResult]
  · simp [HasResult]
  · simp [canTakeTest, hbob]


/-- C17: for every store `s` and name, GetResults(name) changes nothing and returns exactly
the TestResults of `s` whose studentName equals the name after lower-casing, in stored order;
and in every store `t` reachable from the empty store by any sequence of operations it
returns at most one TestResult. -/
theorem getResults_spec (ops : StringOps) (name : String) (s t : Store)
    (ht : Reachable ops t) :
    (getResults ops name s).2 = s ∧
    (∃ rs, (getResults ops name s).1 = ⟨200, .results rs⟩ ∧
      rs = s.results.filter
        (fun r => decide (ops.toLowerCase r.studentName = ops.toLowerCase name)) ∧
      List.Sublist rs s.results ∧
      ∀ r, r ∈ rs ↔ r ∈ s.results ∧ ops.toLowerCase r.studentName = ops.toLowerCase name) ∧
    (∃ rs, (getResults ops name t).1 = ⟨200, .results rs⟩ ∧ rs.length ≤ 1) := by
  refine ⟨rfl, ⟨_, rfl, ?_, List.filter_sublist _, ?_⟩, ⟨_, rfl, ?_⟩⟩
  · congr 1
  · intro r
    simp [List.mem_filter]
  · exact length_filter_key_le_one ops _ t.results (reachable_uniqueResults ops t ht)

theorem getResults_spec_witness :
    Reachable asciiOps
      (Op.run asciiOps env0 (.submitTest "Bob" "B" "4" "5" "[]" false)
        (Op.run asciiOps env0 (.submitTest "bob" "A" "3" "5" "[]" false) emptyStore).2).2 ∧
    ∃ rs, (getResults asciiOps "BOB"
      (Op.run asciiOps env0 (.submitTest "Bob" "B" "4" "5" "[]" false)
        (Op.run asciiOps env0 (.submitTest "bob" "A" "3" "5" "[]" false) emptyStore).2).2).1
        = ⟨200, .results rs⟩ ∧ rs.length ≤ 1 :=
  ⟨Reachable.step _ _ _ (Reachable.step _ _ _ Reachable.empty),
    (getResults_spec asciiOps "BOB" emptyStore _
      (Reachable.step _ _ _ (Reachable.step _ _ _ Reachable.empty))).2.2⟩


/-- C18: failure is atomic.  For every store and every input, if Authenticate, SubmitTest,
GrantSecondChance or AdminResetUser answers with an error, that is with a status other than
200 (ValidationError and ConflictError 400, AuthError 401, NotFoundError 404), then Users and
TestResults are exactly what they were before the call; CanTakeTest leaves them unchanged
whatever it answers. -/
theorem failure_atomic (ops : StringOps) (env : Env) (op : Op) (name : String) (s : Store)
    (h : (op.run ops env s).1.status ≠ 200) :
    (op.run ops env s).2 = s ∧ (canTakeTest ops name s).2 = s := by
  constructor
  · cases op with
    | authenticate n p =>
      simp only [Op.run, authenticate] at h ⊢
      split
      · rfl
      · split
        · split <;> rfl
        · rename_i hnp _ hnone
          simp [hnp, hnone] at h
    | submitTest n p sc t a pdf =>
      simp only [Op.run, submitTest] at h ⊢
      split
      · rfl
      · split
        · rfl
        · rename_i hne _ hnone
          simp [hne, hnone] at h
    | grantSecondChance password n =>
      simp only [Op.run, grantSecondChance] at h ⊢
      split
      · rfl
      · split
        · rfl
        · rename_i hpw _ _ hsome
          simp [hpw, hsome] at h
    | adminResetUser n =>
      simp only [Op.run, adminResetUser] at h ⊢
      split
      · rfl
      · rename_i hsome
        simp [hsome] at h
  · unfold canTakeTest
    split <;> rfl

theorem failure_atomic_witness :
    (Op.run asciiOps env0 (.authenticate "BOB" "wrong") storeBob).1.status = 401 ∧
    (Op.run asciiOps env0 (.authenticate "BOB" "wrong") storeBob).2 = storeBob :=
  ⟨by decide,
    (failure_atomic asciiOps env0 (.authenticate "BOB" "wrong") "bob" storeBob
      (by decide)).1⟩



/-- C19: lock consistency in reachable stores.  In every store reachable from the empty
store by any sequence of Authenticate, SubmitTest, GrantSecondChance and AdminResetUser
calls, every user with canRetake = false has a TestResult with pdfDownloaded = true stored
under a name equal to the user's name after lower-casing. -/
theorem lock_consistency (ops : StringOps) (s : Store) (h : Reachable ops s) :
    LockConsistent ops s := by
  intro u hu hlocked
  obtain ⟨i, hi⟩ := List.mem_iff_getElem?.1 hu
  exact (reachable_lockedFirst ops s h i u hi hlocked).2

theorem lock_consistency_witness :
    Reachable asciiOps
      (Op.run asciiOps env0 (.submitTest "Bob" "B" "4" "5" "[]" true)
        (Op.run asciiOps env0 (.authenticate "bob" "pw1") emptyStore).2).2 ∧
    (Op.run asciiOps env0 (.submitTest "Bob" "B" "4" "5" "[]" true)
        (Op.run asciiOps env0 (.authenticate "bob" "pw1") emptyStore).2).2.users.map
      (fun u => (u.name, u.canRetake)) = [("bob", false)] ∧
    LockConsistent asciiOps
      (Op.run asciiOps env0 (.submitTest "Bob" "B" "4" "5" "[]" true)
        (Op.run asciiOps env0 (.authenticate "bob" "pw1") emptyStore).2).2 :=
  ⟨Reachable.step _ _ _ (Reachable.step _ _ _ Reachable.empty), by decide,
    lock_consistency asciiOps _ (Reachable.step _ _ _ (Reachable.step _ _ _ Reachable.empty))⟩

end Xamplore
